import Mathlib

/-!
Verification of the rs-edlib bit-parallel alignment engine against its
specification.

The Rust sources are embedded shallowly:
* the 64-bit machine word `Word = u64` is a `Nat` reduced modulo `2 ^ 64`
  at the operations that can overflow (`+`, `<<`); bitwise complement is
  xor with the all-ones word;
* `usize` / `isize` arithmetic is `Nat` / `Int` with the debug-build
  panic semantics made explicit: an underflowing `usize` subtraction, an
  out-of-bounds index, a failing `unwrap`, or a failing `try_from` turns
  the surrounding computation into `Except.error`;
* fallible Rust functions (`anyhow::Result`) land in `Except String`;
* `Vec<bool>` tables are bit masks over `Nat` read with `Nat.testBit`;
  the fixed-size lookup arrays of the alphabet transform are total
  functions updated pointwise.

Definitions keep the names of the source items they embed.  Definitions
whose doc comment starts with "Modelled from the spec:" correspond to
code that the repository calls but does not contain; they follow the
wording of the specification.  Definitions named `spec...` transcribe
formulas of the specification text itself and exist to be compared with
the embedded code.
-/

deriving instance DecidableEq for Except

set_option maxRecDepth 10000

namespace RsEdlib

/-- `WORD_SIZE`: bits of one machine word (align.rs). -/
def wordSize : Nat := 64

/-- `Word::MAX`, the all-ones word. -/
def wordMax : Nat := 2 ^ 64 - 1

/-- `HIGH_BIT_MASK`: only bit 63 set (align.rs). -/
def highBitMask : Nat := 2 ^ 63

/-- `MAX_UCHAR` (align.rs). -/
def maxUchar : Nat := 256

/-- Bitwise complement of a `u64`, i.e. xor with the all-ones word. -/
def wnot (x : Nat) : Nat := x ^^^ wordMax

/-- `STRONG_REDUCE_NUM` (dst.rs). -/
def strongReduceNum : Nat := 2048

/-- The `Block` struct of block.rs: vertical delta vectors and the score
of the last (highest-bit) cell. -/
structure Block where
  p : Nat
  m : Nat
  score : Int
deriving Repr, DecidableEq

/-- `hin.is_negative()` cast to a word (block.rs line 30). -/
def hinIsNeg (hin : Int) : Nat := if hin < 0 then 1 else 0

/-- `Block::calculate_hout_delta` (block.rs lines 26-57), the Myers
advance-block step.  Returns `none` exactly where the source propagates
the error of `Word::try_from((hin + 1) >> 1)`, i.e. when that arithmetic
shift is negative; `>> 1` on `isize` is floor division by two. -/
def Block.calculateHoutDelta (b : Block) (eq0 : Nat) (hin : Int) :
    Option (Block × Int) :=
  let hinNeg : Nat := hinIsNeg hin
  let xv : Nat := eq0 ||| b.m
  let eq1 : Nat := eq0 ||| hinNeg
  let xh : Nat := ((((eq1 &&& b.p) + b.p) % 2 ^ 64) ^^^ b.p) ||| eq1
  let ph : Nat := b.m ||| wnot (xh ||| b.p)
  let mh : Nat := b.p &&& xh
  let hout : Int :=
    (((ph &&& highBitMask) >>> (wordSize - 1) : Nat) : Int) -
      (((mh &&& highBitMask) >>> (wordSize - 1) : Nat) : Int)
  let ph : Nat := (ph <<< 1) % 2 ^ 64
  let mh : Nat := (mh <<< 1) % 2 ^ 64
  let mh : Nat := mh ||| hinNeg
  let inj : Int := Int.fdiv (hin + 1) 2
  if inj < 0 then none
  else
    let ph : Nat := ph ||| inj.toNat
    some ({ b with p := mh ||| wnot (xv ||| ph), m := ph &&& xv }, hout)

/-- One pass of the loop body of `Block::get_cell_values` (block.rs lines
67-80), iterated: push the current score, then adjust it by the high bits
of `p` and `m`.  The source also declares a `mask` that it shifts but
never reads; it does not influence the result. -/
def Block.getCellValuesLoop (b : Block) : Nat → List Int × Int
  | 0 => ([], b.score)
  | n + 1 =>
    let (scores, score) := b.getCellValuesLoop n
    let scores := scores ++ [score]
    let score := score - (if b.p &&& highBitMask ≠ 0 then 1 else 0)
    let score := score + (if b.m &&& highBitMask ≠ 0 then 1 else 0)
    (scores, score)

/-- `Block::get_cell_values` (block.rs lines 60-88): 63 loop iterations,
then `scores.get_mut(63)` (absent, since only 63 entries were pushed) so
the final score is pushed as entry 63. -/
def Block.getCellValues (b : Block) : List Int :=
  let (scores, score) := b.getCellValuesLoop (wordSize - 1)
  if wordSize - 1 < scores.length then scores.set (wordSize - 1) score
  else scores ++ [score]

/-- Population count of the low `w` bits of a natural number. -/
def popcountAux : Nat → Nat → Nat
  | 0, _ => 0
  | f + 1, n => n % 2 + popcountAux f (n / 2)

/-- Population count of a 64-bit word. -/
def popcount64 (n : Nat) : Nat := popcountAux 64 n

/-- The cell-value formula of spec section 3: the value of row `i` of a
block is `score - popcount(P >> (i+1)) + popcount(M >> (i+1))`. -/
def specCellValue (b : Block) (i : Nat) : Int :=
  b.score - (popcount64 (b.p >>> (i + 1)) : Int) +
    (popcount64 (b.m >>> (i + 1)) : Int)

/-- Modelled from the spec: `Block::all_block_cells_larger` is called at
dst.rs lines 106 and 123 but is not defined anywhere under src/.  Spec
section 4.5 step 6 removes a boundary block when all of its cells (their
values given by the section 3 formula) are certainly above `k`. -/
def Block.allBlockCellsLarger (b : Block) (k : Int) : Bool :=
  (List.range wordSize).all fun i => k < specCellValue b i

/-- The advance-block recurrence exactly as written in spec section 4.4,
including its rule "if hin ≥ 0 set bit 0 of Ph" for the injection into
the shifted vectors.  Returns the updated block and `hout`. -/
def specAdvanceBlock (b : Block) (eq0 : Nat) (hin : Int) : Block × Int :=
  let xv : Nat := eq0 ||| b.m
  let eq1 : Nat := if hin < 0 then eq0 ||| 1 else eq0
  let xh : Nat := ((((eq1 &&& b.p) + b.p) % 2 ^ 64) ^^^ b.p) ||| eq1
  let ph : Nat := b.m ||| wnot (xh ||| b.p)
  let mh : Nat := b.p &&& xh
  let hout : Int :=
    (((ph >>> (wordSize - 1)) &&& 1 : Nat) : Int) -
      (((mh >>> (wordSize - 1)) &&& 1 : Nat) : Int)
  let ph : Nat := (ph <<< 1) % 2 ^ 64
  let mh : Nat := (mh <<< 1) % 2 ^ 64
  let mh : Nat := if hin < 0 then mh ||| 1 else mh
  let ph : Nat := if 0 ≤ hin then ph ||| 1 else ph
  ({ b with p := mh ||| wnot (xv ||| ph), m := ph &&& xv }, hout)

/-- The amended advance-block recurrence: identical to spec section 4.4
except that bit 0 of the shifted `Ph` is set only when `hin` is strictly
positive, matching `(hin + 1) >> 1`. -/
def specAdvanceBlockAmended (b : Block) (eq0 : Nat) (hin : Int) :
    Block × Int :=
  let xv : Nat := eq0 ||| b.m
  let eq1 : Nat := if hin < 0 then eq0 ||| 1 else eq0
  let xh : Nat := ((((eq1 &&& b.p) + b.p) % 2 ^ 64) ^^^ b.p) ||| eq1
  let ph : Nat := b.m ||| wnot (xh ||| b.p)
  let mh : Nat := b.p &&& xh
  let hout : Int :=
    (((ph >>> (wordSize - 1)) &&& 1 : Nat) : Int) -
      (((mh >>> (wordSize - 1)) &&& 1 : Nat) : Int)
  let ph : Nat := (ph <<< 1) % 2 ^ 64
  let mh : Nat := (mh <<< 1) % 2 ^ 64
  let mh : Nat := if hin < 0 then mh ||| 1 else mh
  let ph : Nat := if 0 < hin then ph ||| 1 else ph
  ({ b with p := mh ||| wnot (xv ||| ph), m := ph &&& xv }, hout)

/-- `AlignMode` (mode.rs): global, query-start anchored, and free-query
placement alignment. -/
inductive AlignMode where
  | NW
  | SHW
  | HW
deriving Repr, DecidableEq

/-- `AlignTask` (task.rs). -/
inductive AlignTask where
  | Distance
  | Loc
  | Path
deriving Repr, DecidableEq

/-- `EditOp` (cigar.rs). -/
inductive EditOp where
  | Match
  | Insert
  | Delete
  | Mismatch
deriving Repr, DecidableEq

/-- The `Alignment` result struct (align.rs lines 29-50). -/
structure Alignment where
  editDistance : Option Nat
  endLocations : Option (List Int)
  startLocations : Option (List Int)
  alignment : Option (List EditOp)
  alphabetLength : Nat
deriving Repr, DecidableEq

/-- `Alignment::default()`. -/
def Alignment.empty : Alignment := ⟨none, none, none, none, 0⟩

/-- `AlignConfig` (config.rs).  The field `k` is declared `isize` with a
negative sentinel documented as "auto-adjust", but the only consumer
(align.rs line 188) reads it with `unwrap_or_else`; it is modelled as the
`Option` that consumer requires, `none` meaning dynamic k. -/
structure AlignConfig where
  k : Option Nat
  mode : AlignMode
  task : AlignTask
  addedEqualities : List (Nat × Nat)

/-- `ceil_div!` (lib.rs). -/
def ceilDiv (x y : Nat) : Nat := (x + y - 1) / y

/-- The state of `transform_sequences` (align.rs lines 53-91): the
alphabet built so far plus the two 256-entry lookup tables, modelled as
total functions. -/
structure TransformState where
  alphabet : List Nat
  letterIdx : Nat → Option Nat
  inAlphabet : Nat → Bool

/-- The number of UTF-8 bytes `String::push` appends for one character,
by code point range. -/
def utf8Len (c : Nat) : Nat :=
  if c < 128 then 1 else if c < 2048 then 2 else if c < 65536 then 3 else 4

/-- `String::len` of the alphabet string: the sum of the UTF-8 widths
of its characters. -/
def byteLen (l : List Nat) : Nat := (l.map utf8Len).sum

/-- The UTF-8 byte offset of the first occurrence of a character in a
string modelled as its list of code points. -/
def byteFind : List Nat → Nat → Option Nat
  | [], _ => none
  | x :: xs, c =>
    if x = c then some 0 else (byteFind xs c).map (· + utf8Len x)

/-- Processing of one character by the `modify_seq` closure of
`transform_sequences`: grow the alphabet on first sight (the
`in_alphabet.get` test is `Some(false)` only below `MAX_UCHAR`), then
read `letter_idx[elem]` and unwrap it, both of which panic for
characters at or above `MAX_UCHAR`.  The recorded index is
`alphabet.len()` before the push (align.rs line 77) — the UTF-8 byte
length of the `String`, not its character count. -/
def modifySeqStep (st : TransformState) (elem : Nat) :
    Except String (TransformState × Nat) :=
  let st :=
    if elem < maxUchar ∧ st.inAlphabet elem = false then
      { alphabet := st.alphabet ++ [elem]
        letterIdx := fun c =>
          if c = elem then some (byteLen st.alphabet) else st.letterIdx c
        inAlphabet := fun c => if c = elem then true else st.inAlphabet c }
    else st
  if elem < maxUchar then
    match st.letterIdx elem with
    | some i => .ok (st, i)
    | none => .error "called Option unwrap on a None value"
  else .error "index out of bounds"

/-- The `modify_seq` closure of `transform_sequences`: thread the state
through the sequence, emitting the transformed indices. -/
def modifySeq (st : TransformState) :
    List Nat → Except String (TransformState × List Nat)
  | [] => .ok (st, [])
  | c :: rest => do
    let r1 ← modifySeqStep st c
    let r2 ← modifySeq r1.1 rest
    .ok (r2.1, r1.2 :: r2.2)

/-- `transform_sequences` (align.rs lines 53-91): returns the alphabet
and both sequences re-expressed as alphabet indices, query first. -/
def transformSequences (query target : List Nat) :
    Except String (List Nat × List Nat × List Nat) := do
  let st : TransformState := ⟨[], fun _ => none, fun _ => false⟩
  let r1 ← modifySeq st query
  let r2 ← modifySeq r1.1 target
  .ok (r2.1.alphabet, r1.2, r2.2)

/-- `str::find` over the alphabet, in the chars-as-naturals model: index
of the first occurrence. -/
def strFind (s : List Nat) (c : Nat) : Option Nat :=
  match s with
  | [] => none
  | x :: xs => if x = c then some 0 else (strFind xs c).map (· + 1)

/-- Write one cell of a `Vec<bool>` modelled as a bit mask. -/
def vecBoolSet (v i : Nat) (b : Bool) : Nat :=
  if b then v ||| (1 <<< i)
  else if v.testBit i then v - (1 <<< i) else v

/-- `EqualityDefinition` (equal.rs): the alphabet plus the
`MAX_UCHAR * MAX_UCHAR` boolean matrix, the latter as a bit mask. -/
structure EqualityDefinition where
  alphabet : List Nat
  matrix : Nat

/-- `EqualityDefinition::new` (equal.rs lines 49-85): identity written
with stride `alphabet.len()`, then each added pair whose two characters
are both found in the alphabet sets cell `first + len * second`. -/
def EqualityDefinition.new (alphabet : List Nat)
    (addedEqualities : List (Nat × Nat)) : EqualityDefinition :=
  let len := alphabet.length
  let matrix := (List.range len).foldl
    (fun mat x =>
      (List.range len).foldl
        (fun mat y => vecBoolSet mat (y * len + x) (decide (x = y))) mat)
    0
  let matrix := addedEqualities.foldl
    (fun mat pr =>
      match strFind alphabet pr.1, strFind alphabet pr.2 with
      | some firstPos, some secondPos =>
        vecBoolSet mat (firstPos + len * secondPos) true
      | _, _ => mat)
    matrix
  ⟨alphabet, matrix⟩

/-- The `Index` impl of equal.rs lines 134-143: read cell
`x + alphabet.len() * y`, panicking past the vector length. -/
def EqualityDefinition.matrixGet (e : EqualityDefinition) (x y : Nat) :
    Except String Bool :=
  if x + e.alphabet.length * y < maxUchar * maxUchar then
    .ok (e.matrix.testBit (x + e.alphabet.length * y))
  else .error "Invalid index"

/-- `EqualityDefinition::are_equal` (equal.rs lines 111-119): find both
characters in the alphabet, bail if either is absent, then read the
matrix. -/
def EqualityDefinition.areEqual (e : EqualityDefinition) (a b : Nat) :
    Except String Bool :=
  match strFind e.alphabet a, strFind e.alphabet b with
  | some posX, some posY => e.matrixGet posX posY
  | _, _ => .error "One or more characters do not exist in alphabet"

/-- `EqualityDefinition::symbol` (equal.rs lines 128-130). -/
def EqualityDefinition.symbol (e : EqualityDefinition) (index : Nat) :
    Option Nat :=
  e.alphabet.get? index

/-- The inner loop of `build_peq_table` (peq.rs lines 50-64) for one
(symbol, block) pair, iterating `r` downward from `base + count - 1` to
`base`: shift the word, look up `query[r]` defaulting to 0, unwrap its
character, and set the low bit on wildcard overflow or equality. -/
def buildPeqWordAux (eqd : EqualityDefinition) (query : List Nat)
    (symbolChar base : Nat) : Nat → Nat → Except String Nat
  | 0, acc => .ok acc
  | n + 1, acc =>
    let r := base + n
    let acc2 := acc <<< 1
    let rCharIdx := (query.get? r).getD 0
    match eqd.symbol rCharIdx with
    | none => .error "called Option unwrap on a None value"
    | some rChar =>
      (if query.length ≤ r then pure true
       else eqd.areEqual rChar symbolChar) >>= fun cond =>
        buildPeqWordAux eqd query symbolChar base n
          (if cond then acc2 + 1 else acc2)

/-- Fail-fast effectful map, the behaviour of `collect` on iterators of
`Result`. -/
def exceptMap {α β : Type} (f : α → Except String β) :
    List α → Except String (List β)
  | [] => .ok []
  | x :: xs => do
    let y ← f x
    let ys ← exceptMap f xs
    .ok (y :: ys)

/-- The per-symbol row of `build_peq_table`: for a real symbol the block
words in block order, for the absent (wildcard) symbol all-ones words. -/
def buildPeqRow (eqd : EqualityDefinition) (query : List Nat)
    (maxNumBlocks symbol : Nat) : Except String (List Nat) :=
  match eqd.symbol symbol with
  | some symbolChar =>
    exceptMap
      (fun block =>
        buildPeqWordAux eqd query symbolChar (block * wordSize) wordSize 0)
      (List.range maxNumBlocks)
  | none => .ok (List.replicate maxNumBlocks wordMax)

/-- `build_peq_table` (peq.rs lines 10-76): rows for symbols
`0..=alphabet_length` concatenated in row-major (symbol, block) order,
exactly the order in which the source fills its flat vector. -/
def buildPeqTable (alphabetLength : Nat) (query : List Nat)
    (eqd : EqualityDefinition) : Except String (List Nat) := do
  let maxNumBlocks := ceilDiv query.length wordSize
  let rows ← exceptMap (buildPeqRow eqd query maxNumBlocks)
    (List.range (alphabetLength + 1))
  .ok rows.flatten

/-- Read `l[i]`, with the index panic modelled as an error. -/
def vecGet {α : Type} (l : List α) (i : Nat) : Except String α :=
  match l.get? i with
  | some a => .ok a
  | none => .error "index out of bounds"

/-- `usize` subtraction with the debug-build panic on underflow. -/
def usub (a b : Nat) : Except String Nat :=
  if b ≤ a then .ok (a - b) else .error "attempt to subtract with overflow"

/-- `usize::try_from` on an `isize` value. -/
def intToUsize (v : Int) : Except String Nat :=
  if 0 ≤ v then .ok v.toNat
  else .error "out of range integral type conversion attempted"

/-- `isize::try_from` on a `usize` value. -/
def natToIsize (n : Nat) : Except String Int :=
  if n < 2 ^ 63 then .ok (n : Int)
  else .error "out of range integral type conversion attempted"

/-- The `?` on a `calculate_hout_delta` call. -/
def houtResult (r : Option (Block × Int)) : Except String (Block × Int) :=
  match r with
  | some v => .ok v
  | none => .error "out of range integral type conversion attempted"

/-- The mutable state of one semi-global sweep (dst.rs lines 31-55). -/
structure SgState where
  firstBlockIdx : Nat
  lastBlockIdx : Nat
  blocks : List Block
  k : Int
  bestScore : Option Nat
  positions : List Int

/-- The per-column block loop (dst.rs lines 61-67), iterating the block
index upward for the given count: advance each active block with the
carried horizontal delta and add the returned `hout` to its score. -/
def sgBlockLoopAux (peq : List Nat) (colIdx : Nat) :
    Nat → Nat → List Block → Int → Except String (List Block × Int)
  | 0, _, blocks, hout => .ok (blocks, hout)
  | n + 1, b, blocks, hout => do
    let blk ← vecGet blocks b
    let eqw ← vecGet peq (colIdx + b)
    let (blk, hout) ← houtResult (blk.calculateHoutDelta eqw hout)
    let blocks := blocks.set b { blk with score := blk.score + hout }
    sgBlockLoopAux peq colIdx n (b + 1) blocks hout

/-- The band-shrink loop (dst.rs lines 85-93): each pass first reads
`blocks[last_block_idx - 1]` (underflowing at zero), then stops unless
the band is nonempty and that score is at least `k + W`. -/
def sgShrinkLoop (blocks : List Block) (first : Nat) (k : Int) :
    Nat → Except String Nat
  | 0 => .error "attempt to subtract with overflow"
  | l + 1 => do
    let lb ← vecGet blocks l
    if l + 1 > first ∧ k + (wordSize : Int) ≤ lb.score then
      sgShrinkLoop blocks first k l
    else .ok (l + 1)

/-- The strong band-shrink loop (dst.rs lines 101-110): reads
`blocks[last_block_idx]` each pass, then stops unless the band is
nonempty and every cell of that block is above `k`. -/
def sgStrongLastLoop (blocks : List Block) (first : Nat) (k : Int) :
    Nat → Except String Nat
  | 0 => do
    let _ ← vecGet blocks 0
    .ok 0
  | l + 1 => do
    let lb ← vecGet blocks (l + 1)
    if l + 1 > first ∧ lb.allBlockCellsLarger k then
      sgStrongLastLoop blocks first k l
    else .ok (l + 1)

/-- dst.rs lines 114-118 (SHW only): advance `first` while the score of
its block is at least `k + W`; the fuel is chosen above the loop bound
and the exhaustion branch is unreachable. -/
def sgFirstLoop (blocks : List Block) (last : Nat) (k : Int) :
    Nat → Nat → Except String Nat
  | 0, _ => .error "internal: loop bound exhausted"
  | fuel + 1, first =>
    if first ≤ last then do
      let fb ← vecGet blocks first
      if k + (wordSize : Int) ≤ fb.score then
        sgFirstLoop blocks last k fuel (first + 1)
      else .ok first
    else .ok first

/-- dst.rs lines 121-127 (SHW only): the strong first-block reduction.
The borrow `&blocks[first_block_idx]` is taken once, panicking out of
bounds, and the loop keeps testing that same block, so a true test
drives `first` to `last + 1` and a false one leaves it unchanged. -/
def sgStrongFirst (blocks : List Block) (last : Nat) (k : Int)
    (first : Nat) : Except String Nat := do
  let fb ← vecGet blocks first
  if first ≤ last ∧ fb.allBlockCellsLarger k then .ok (last + 1)
  else .ok first

/-- dst.rs lines 140-158: when the band reaches the final block and the
bottom-cell score is within `k` and no worse than the best so far,
record; a strict improvement clears the positions, resets `k`, and
stores the new best, and the pushed end position is built from the
enumerated value `c`, which at this line is the target symbol. -/
def sgRecord (maxNumBlocks w c : Nat) (st : SgState) :
    Except String SgState :=
  if st.lastBlockIdx = maxNumBlocks - 1 then do
    let lb ← vecGet st.blocks st.lastBlockIdx
    let colScore := lb.score
    if colScore ≤ st.k ∧
        (st.bestScore.isNone ∨ st.bestScore.any fun b => colScore ≤ (b : Int)) then
      if st.bestScore.map (fun b => (b : Int)) ≠ some colScore then do
        let newBest ← intToUsize colScore
        .ok { st with positions := [(c : Int) - (w : Int)],
                      bestScore := some newBest, k := colScore }
      else
        .ok { st with positions := st.positions ++ [(c : Int) - (w : Int)] }
    else .ok st
  else .ok st

/-- Outcome of one column of the semi-global sweep: either carry on, or
return early because the band vanished (dst.rs lines 130-138). -/
inductive SgColumnResult where
  | next (st : SgState)
  | early (st : SgState)

/-- One column of the semi-global sweep (dst.rs lines 57-158) at target
position `idx` holding symbol `c`.  The peq words are read at
`idx + c * maxNumBlocks + blockIdx`, and both the strong-reduction
trigger and the recorded end position use the symbol `c`. -/
def sgColumn (peq : List Nat) (w maxNumBlocks : Nat) (mode : AlignMode)
    (startHout : Int) (st : SgState) (idx c : Nat) :
    Except String SgColumnResult := do
  let colIdx := idx + c * maxNumBlocks
  let count := st.lastBlockIdx + 1 - st.firstBlockIdx
  let (blocks, hout) ←
    sgBlockLoopAux peq colIdx count st.firstBlockIdx st.blocks startHout
  let nextPeqC ← vecGet peq (colIdx + st.lastBlockIdx)
  let mbm1 ← usub maxNumBlocks 1
  let st ← do
    if st.lastBlockIdx < mbm1 then do
      let lm1 ← usub st.lastBlockIdx 1
      let lb ← vecGet blocks lm1
      if lb.score - hout ≤ st.k ∧ (nextPeqC &&& 1 ≠ 0 ∨ hout < 0) then do
        let (nb, nh) ←
          houtResult ((⟨wordMax, 0, lb.score⟩ : Block).calculateHoutDelta
            nextPeqC hout)
        let blocks := blocks.set lm1
          { nb with score := lb.score - hout + (wordSize : Int) + nh }
        .ok { st with lastBlockIdx := st.lastBlockIdx + 1, blocks := blocks }
      else do
        let last ← sgShrinkLoop blocks st.firstBlockIdx st.k st.lastBlockIdx
        .ok { st with lastBlockIdx := last, blocks := blocks }
    else do
      let last ← sgShrinkLoop blocks st.firstBlockIdx st.k st.lastBlockIdx
      .ok { st with lastBlockIdx := last, blocks := blocks }
  let st ← do
    if c % strongReduceNum = 0 then do
      let last ← sgStrongLastLoop st.blocks st.firstBlockIdx st.k st.lastBlockIdx
      .ok { st with lastBlockIdx := last }
    else .ok st
  let st ← do
    if mode = AlignMode.SHW then do
      let first ← sgFirstLoop st.blocks st.lastBlockIdx st.k
        (st.lastBlockIdx + 2) st.firstBlockIdx
      let first ←
        if c % strongReduceNum = 0 then
          sgStrongFirst st.blocks st.lastBlockIdx st.k first
        else .ok first
      .ok { st with firstBlockIdx := first }
    else .ok st
  if st.lastBlockIdx < st.firstBlockIdx then
    .ok (.early st)
  else do
    let st ← sgRecord maxNumBlocks w c st
    .ok (.next st)

/-- How the semi-global column loop ended. -/
inductive SgOutcome where
  | finished (st : SgState)
  | early (st : SgState)

/-- The column loop of the semi-global sweep. -/
def sgLoop (peq : List Nat) (w maxNumBlocks : Nat) (mode : AlignMode)
    (startHout : Int) : List Nat → Nat → SgState → Except String SgOutcome
  | [], _, st => .ok (.finished st)
  | c :: rest, idx, st => do
    match ← sgColumn peq w maxNumBlocks mode startHout st idx c with
    | .next st => sgLoop peq w maxNumBlocks mode startHout rest (idx + 1) st
    | .early st => .ok (.early st)

/-- dst.rs lines 163-181: after the last column, scan the `w` padded
cell values of the bottom block (entries `1..=w` of its cell values),
recording positions `target.len() - w + i` under the same best-or-tie
rule as the in-loop recording. -/
def sgFinalLoop (targetLen w : Nat) (blockScores : List Int) :
    Nat → Nat → Int → Option Nat → List Int →
    Except String (Int × Option Nat × List Int)
  | 0, _, k, best, positions => .ok (k, best, positions)
  | nLeft + 1, i, k, best, positions => do
    let colScore ← vecGet blockScores (i + 1)
    if colScore ≤ k ∧
        (best.isNone ∨ best.any fun b => colScore ≤ (b : Int)) then
      if best.map (fun b => (b : Int)) ≠ some colScore then do
        let nb ← intToUsize colScore
        sgFinalLoop targetLen w blockScores nLeft (i + 1) colScore (some nb)
          [(targetLen : Int) - (w : Int) + (i : Int)]
      else
        sgFinalLoop targetLen w blockScores nLeft (i + 1) k best
          (positions ++ [(targetLen : Int) - (w : Int) + (i : Int)])
    else sgFinalLoop targetLen w blockScores nLeft (i + 1) k best positions

/-- dst.rs lines 131-137 and 184-188: the edit distance becomes the best
score, and the end locations are published only when a best exists. -/
def sgOutput (aln : Alignment) (best : Option Nat) (positions : List Int) :
    Alignment :=
  let aln := { aln with editDistance := best }
  if best.isSome then { aln with endLocations := some positions } else aln

/-- dst.rs line 38: the initial last-block index of the semi-global
sweep, `min(k + 1 / word_size, max_num_blocks)` with the division
binding before the addition, exactly as the source parses. -/
def sgInitLastBlockIdx (k maxNumBlocks : Nat) : Nat :=
  min (k + 1 / wordSize) maxNumBlocks

/-- dst.rs lines 41-47 and 259-265: blocks `0..=lastBlockIdx` initialised
with all-ones `P`, zero `M`, and score `(b + 1) * W`. -/
def initBlocks (lastBlockIdx : Nat) : List Block :=
  (List.range (lastBlockIdx + 1)).map fun b =>
    ⟨wordMax, 0, ((b + 1) * wordSize : Nat)⟩

/-- dst.rs lines 37-47: the state entering the semi-global column loop —
`first_block_idx = 0`, the given initial last block, and the freshly
initialised block stack. -/
def sgInitState (lastBlockIdx : Nat) (kInt : Int) : SgState :=
  ⟨0, lastBlockIdx, initBlocks lastBlockIdx, kInt, none, []⟩

/-- The whole sweep of `calc_edit_dst_semi_global` up to its result
fields: initialisation (dst.rs lines 31-55), the column loop, and the
after-loop emission, ending in the best score and position list that
lines 131-137 and 184-188 publish. -/
def sgCompute (peq : List Nat) (w maxNumBlocks queryLen : Nat)
    (target : List Nat) (k : Nat) (mode : AlignMode) :
    Except String (Option Nat × List Int) := do
  let lastBlockIdx := sgInitLastBlockIdx k maxNumBlocks
  let k := if mode = AlignMode.HW then min queryLen k else k
  let startHout : Int := if mode = AlignMode.HW then 0 else 1
  let kInt ← natToIsize k
  let st : SgState := sgInitState lastBlockIdx kInt
  match ← sgLoop peq w maxNumBlocks mode startHout target 0 st with
  | .early st => .ok (st.bestScore, st.positions)
  | .finished st =>
    if st.lastBlockIdx = maxNumBlocks - 1 then do
      let lb ← vecGet st.blocks st.lastBlockIdx
      let (_, best, positions) ← sgFinalLoop target.length w lb.getCellValues
        w 0 st.k st.bestScore st.positions
      .ok (best, positions)
    else .ok (st.bestScore, st.positions)

/-- `Alignment::calc_edit_dst_semi_global` (dst.rs lines 21-190): run
the sweep and write the result fields. -/
def Alignment.calcEditDstSemiGlobal (aln : Alignment) (peq : List Nat)
    (w maxNumBlocks queryLen : Nat) (target : List Nat) (k : Nat)
    (mode : AlignMode) : Except String Alignment := do
  let bp ← sgCompute peq w maxNumBlocks queryLen target k mode
  .ok (sgOutput aln bp.1 bp.2)

/-- Write `l[i]`, with the index panic modelled as an error. -/
def vecSet {α : Type} (l : List α) (i : Nat) (a : α) :
    Except String (List α) :=
  if i < l.length then .ok (l.set i a) else .error "index out of bounds"

/-- `AlignmentData` (align.rs lines 94-117). -/
structure AlignmentData where
  ps : List (Option Nat)
  ms : List (Option Nat)
  scores : List (Option Int)
  firstBlocks : List (Option Nat)
  lastBlocks : List (Option Nat)
deriving Repr, DecidableEq

/-- `AlignmentData::new` (align.rs lines 108-116). -/
def AlignmentData.new (maxNumBlocks targetLen : Nat) : AlignmentData :=
  ⟨List.replicate (maxNumBlocks * targetLen) none,
   List.replicate (maxNumBlocks * targetLen) none,
   List.replicate (maxNumBlocks * targetLen) none,
   List.replicate targetLen none,
   List.replicate targetLen none⟩

/-- The mutable state of the global sweep (dst.rs lines 234-265), plus
the optional alignment-data buffer threaded through its writes. -/
structure NwState where
  firstBlockIdx : Nat
  lastBlockIdx : Nat
  blocks : List Block
  k : Nat
  ad : Option AlignmentData

/-- dst.rs lines 253-256 given the already clamped `k`: the initial
last-block index of the global sweep,
`min(max_num_blocks, min(k, (k + query_len - target.len() / 2) + 1) / word_size) - 1`,
with the usize underflows of the source made explicit. -/
def nwInitLastBlockIdx (k queryLen targetLen maxNumBlocks : Nat) :
    Except String Nat := do
  let inner1 ← usub (k + queryLen) (targetLen / 2)
  let inner := min k (inner1 + 1) / wordSize
  usub (min maxNumBlocks inner) 1

/-- dst.rs lines 351-361: the loose band-shrink loop of the global sweep.
The reference `last_block` enters pointing at block `lb`; after a
decrement it points at the new last block. -/
def nwShrinkLoop (blocks : List Block) (first : Nat) (k : Nat)
    (targetLen c queryLen : Nat) : Nat → Nat → Except String Nat
  | last, lb => do
    let lbBlk ← vecGet blocks lb
    let condA := first ≤ last
    let condAB ←
      if condA then do
        let kw ← natToIsize (k + wordSize)
        pure (decide (kw ≤ lbBlk.score))
      else pure false
    let cond ←
      if condAB then pure true
      else do
        let s ← intToUsize lbBlk.score
        let u ← usub k s
        let u2 ← usub (u + 2 * wordSize - 2) targetLen
        pure (decide ((u2 + c + queryLen + 1 : Nat) < (last + 1) * wordSize - 1))
    if cond then
      match last with
      | 0 => .error "attempt to subtract with overflow"
      | l + 1 => nwShrinkLoop blocks first k targetLen c queryLen l l
    else .ok last

/-- dst.rs lines 364-372: advance `first` while its block is outside the
band; the fuel is chosen above the loop bound. -/
def nwFirstLoop (blocks : List Block) (last : Nat) (k : Nat)
    (targetLen c queryLen : Nat) : Nat → Nat → Except String Nat
  | 0, _ => .error "internal: loop bound exhausted"
  | fuel + 1, first =>
    if first ≤ last then do
      let fb ← vecGet blocks first
      let kw ← natToIsize (k + wordSize)
      let cond ←
        if kw ≤ fb.score then pure true
        else do
          let u ← usub k targetLen
          let i ← natToIsize (u + queryLen + c)
          let n ← intToUsize (fb.score - i)
          pure (decide ((first + 1) * wordSize - 1 < n))
      if cond then
        nwFirstLoop blocks last k targetLen c queryLen fuel (first + 1)
      else .ok first
    else .ok first

/-- dst.rs lines 389-398 and 412-421: the inner scan of the strong
reduction, walking the listed cell values while decrementing the row
index `r`; returns whether the in-band test broke the outer loop. -/
def nwStrongInner (kI : Int) (targetLen c queryLen : Nat) :
    List Int → Nat → Except String Bool
  | [], _ => .ok false
  | score :: rest, r =>
    if score ≤ kI then do
      let rI ← natToIsize r
      let tcq ← natToIsize (targetLen + c + queryLen)
      if rI ≤ kI - score - tcq + 1 then .ok true
      else do
        let r2 ← usub r 1
        nwStrongInner kI targetLen c queryLen rest r2
    else do
      let r2 ← usub r 1
      nwStrongInner kI targetLen c queryLen rest r2

/-- dst.rs lines 379-401: the strong last-block reduction of the global
sweep. -/
def nwStrongLastLoop (blocks : List Block) (first : Nat) (kI : Int)
    (maxNumBlocks w targetLen c queryLen : Nat) :
    Nat → Except String Nat
  | 0 =>
    if 0 < first then .ok 0
    else do
      let blk ← vecGet blocks 0
      let numCells := if 0 = maxNumBlocks - 1 then wordSize - w else wordSize
      let items := (blk.getCellValues.take wordSize).drop (wordSize - numCells)
      let broke ← nwStrongInner kI targetLen c queryLen items (numCells - 1)
      if broke then .ok 0 else .error "attempt to subtract with overflow"
  | l + 1 =>
    if l + 1 < first then .ok (l + 1)
    else do
      let blk ← vecGet blocks (l + 1)
      let numCells :=
        if l + 1 = maxNumBlocks - 1 then wordSize - w else wordSize
      let items := (blk.getCellValues.take wordSize).drop (wordSize - numCells)
      let broke ← nwStrongInner kI targetLen c queryLen items
        ((l + 1) * wordSize + numCells - 1)
      if broke then .ok (l + 1)
      else nwStrongLastLoop blocks first kI maxNumBlocks w targetLen c queryLen l

/-- dst.rs lines 403-423: the strong first-block reduction of the global
sweep. -/
def nwStrongFirstLoop (blocks : List Block) (last : Nat) (kI : Int)
    (maxNumBlocks w targetLen c queryLen : Nat) :
    Nat → Nat → Except String Nat
  | 0, _ => .error "internal: loop bound exhausted"
  | fuel + 1, first =>
    if first ≤ last then do
      let blk ← vecGet blocks first
      let numCells :=
        if first = maxNumBlocks - 1 then wordSize - w else wordSize
      let items := (blk.getCellValues.take wordSize).drop (wordSize - numCells)
      let broke ← nwStrongInner kI targetLen c queryLen items
        (first * wordSize + numCells - 1)
      if broke then .ok first
      else nwStrongFirstLoop blocks last kI maxNumBlocks w targetLen c queryLen fuel (first + 1)
    else .ok first

/-- Outcome of one column of the global sweep: carry on, or perform one
of the early returns of dst.rs lines 427-431 and 446-463, which leave
the alignment untouched and hand back the position slot and the
alignment data. -/
inductive NwColumnResult where
  | next (st : NwState)
  | ret (position : Option Nat) (ad : Option AlignmentData)

/-- dst.rs lines 434-444: store the active band of this column into the
alignment data, at the indices the source computes from the symbol `c`. -/
def nwSaveColumn (maxNumBlocks : Nat) (targetLen c first last : Nat)
    (blocks : List Block) (ad : AlignmentData) :
    Except String AlignmentData := do
  if c < targetLen then do
    let band := (blocks.drop first).take (last + 1 - first)
    let adels ← band.foldlM (fun (acc : AlignmentData × Nat) block => do
        let (ad, b) := acc
        let i := maxNumBlocks + c + b
        let ps ← vecSet ad.ps i (some block.p)
        let ms ← vecSet ad.ms i (some block.m)
        let scores ← vecSet ad.scores i (some block.score)
        pure ({ ad with ps := ps, ms := ms, scores := scores }, b + 1))
      (ad, 0)
    let ad := adels.1
    let fbs ← vecSet ad.firstBlocks c (some first)
    let lbs ← vecSet ad.lastBlocks c (some last)
    .ok { ad with firstBlocks := fbs, lastBlocks := lbs }
  else .ok ad

/-- dst.rs lines 446-462: at the stop column, store the band at the
start of the buffers. -/
def nwSaveStopColumn (first last : Nat) (blocks : List Block)
    (ad : AlignmentData) : Except String AlignmentData := do
  let band := (blocks.drop first).take (last + 1 - first)
  let adels ← band.foldlM (fun (acc : AlignmentData × Nat) block => do
      let (ad, b) := acc
      let ps ← vecSet ad.ps b (some block.p)
      let ms ← vecSet ad.ms b (some block.m)
      let scores ← vecSet ad.scores b (some block.score)
      pure ({ ad with ps := ps, ms := ms, scores := scores }, b + 1))
    (ad, 0)
  let ad := adels.1
  let fbs ← vecSet ad.firstBlocks 0 (some first)
  let lbs ← vecSet ad.lastBlocks 0 (some last)
  .ok { ad with firstBlocks := fbs, lastBlocks := lbs }

/-- One column of the global sweep (dst.rs lines 276-464) at target
position `idx` holding symbol `c`: advance the band, tighten `k` (both
subtractions on the way can underflow usize), expand or shrink the band,
apply the strong reduction on symbol multiples of `STRONG_REDUCE_NUM`,
and optionally store the column. -/
def nwColumn (position : Option Nat) (peq : List Nat)
    (w maxNumBlocks queryLen : Nat) (targetLen : Nat)
    (targetStopPosition : Option Nat) (st : NwState) (idx c : Nat) :
    Except String NwColumnResult := do
  let colIdx := idx + c * maxNumBlocks
  let count := st.lastBlockIdx + 1 - st.firstBlockIdx
  let (blocks, hout) ←
    sgBlockLoopAux peq colIdx count st.firstBlockIdx st.blocks (1 : Int)
  let lm1 ← usub st.lastBlockIdx 1
  let lbBlk ← vecGet blocks lm1
  let t1a ← usub targetLen c
  let t1 ← usub t1a 1
  let t2a ← usub queryLen ((1 + st.lastBlockIdx) * wordSize - 1)
  let t2 ← usub t2a 1
  let mx := max t1 t2 +
    (if st.lastBlockIdx = maxNumBlocks - 1 then w else 0)
  let mxI ← natToIsize mx
  let cmpN ← intToUsize (lbBlk.score + mxI)
  let k := min st.k cmpN
  let last := st.lastBlockIdx
  let (blocks, last, lb) ← do
    if last + 1 < maxNumBlocks then do
      let s ← intToUsize lbBlk.score
      let u ← usub k s
      let u2 ← usub (u + 2 * wordSize - 2) targetLen
      if (last + 1) * wordSize - 1 ≤ u2 + c + queryLen then do
        let prevBlk ← vecGet blocks last
        let newLast := last + 1
        let _ ← vecGet blocks newLast
        let peqC ← vecGet peq (colIdx + newLast)
        let (nb, newHout) ←
          houtResult ((⟨wordMax, 0, prevBlk.score⟩ : Block).calculateHoutDelta
            peqC hout)
        let blocks := blocks.set newLast
          { nb with score :=
              prevBlk.score - hout + (wordSize : Int) + newHout }
        .ok (blocks, newLast, newLast)
      else .ok (blocks, last, lm1)
    else .ok (blocks, last, lm1)
  let last ←
    nwShrinkLoop blocks st.firstBlockIdx k targetLen c queryLen last lb
  let first ← nwFirstLoop blocks last k targetLen c queryLen (last + 2)
    st.firstBlockIdx
  let kI ← natToIsize k
  let (first, last) ← do
    if c % strongReduceNum = 0 then do
      let last ←
        nwStrongLastLoop blocks first kI maxNumBlocks w targetLen c queryLen last
      let first ←
        nwStrongFirstLoop blocks last kI maxNumBlocks w targetLen c queryLen (last + 2) first
      .ok (first, last)
    else .ok (first, last)
  if last < first then
    .ok (.ret position st.ad)
  else do
    match st.ad with
    | some ad => do
      let ad ← nwSaveColumn maxNumBlocks targetLen c first last blocks ad
      if targetStopPosition = some c then do
        let ad ← nwSaveStopColumn first last blocks ad
        let position :=
          match position, targetStopPosition with
          | some _, some stop => some stop
          | p, _ => p
        .ok (.ret position (some ad))
      else
        .ok (.next ⟨first, last, blocks, k, some ad⟩)
    | none => .ok (.next ⟨first, last, blocks, k, none⟩)

/-- How the global column loop ended: normally, or through one of the
early returns. -/
inductive NwOutcome where
  | finished (st : NwState)
  | ret (position : Option Nat) (ad : Option AlignmentData)

/-- The column loop of the global sweep. -/
def nwLoop (position : Option Nat) (peq : List Nat)
    (w maxNumBlocks queryLen : Nat) (targetLen : Nat)
    (targetStopPosition : Option Nat) :
    List Nat → Nat → NwState → Except String NwOutcome
  | [], _, st => .ok (.finished st)
  | c :: rest, idx, st => do
    match ← nwColumn position peq w maxNumBlocks queryLen targetLen
        targetStopPosition st idx c with
    | .next st =>
      nwLoop position peq w maxNumBlocks queryLen targetLen
        targetStopPosition rest (idx + 1) st
    | .ret p ad => .ok (.ret p ad)

/-- dst.rs lines 467-481: after the column loop of the global sweep,
read the cell at offset `w` of the last block when the band still covers
it, and write the distance and position only when both mutable
references exist; on every other path the fields keep their previous
values. -/
def nwFinish (aln : Alignment) (position : Option Nat)
    (targetLen maxNumBlocks w : Nat) (outcome : NwOutcome) :
    Except String (Alignment × Option Nat × Option AlignmentData) :=
  match outcome with
  | .ret p ad => .ok (aln, p, ad)
  | .finished st =>
    if st.lastBlockIdx = maxNumBlocks - 1 then do
      let blk ← vecGet st.blocks st.lastBlockIdx
      let lastBest ← vecGet blk.getCellValues w
      let kI ← natToIsize st.k
      if lastBest ≤ kI then do
        if aln.editDistance.isSome ∧ position.isSome then do
          let v ← intToUsize lastBest
          let tm1 ← usub targetLen 1
          .ok ({ aln with editDistance := some v }, some tm1, st.ad)
        else .ok (aln, position, st.ad)
      else .ok (aln, position, st.ad)
    else .ok (aln, position, st.ad)

/-- dst.rs lines 235-265: the state entering the global column loop —
`first_block_idx = 0`, the given initial last block, and the freshly
initialised block stack. -/
def nwInitState (lastBlockIdx k : Nat) (ad : Option AlignmentData) :
    NwState :=
  ⟨0, lastBlockIdx, initBlocks lastBlockIdx, k, ad⟩

/-- `Alignment::calc_edit_dst_nw` (dst.rs lines 207-482).  The source
reads `best_score = self.edit_distance.as_mut()` and receives `position`
as a mutable reference inside an option: `take()` only clears the local
option, so both keep their previous values on the no-solution paths, and
the final write requires both references to exist. -/
def Alignment.calcEditDstNw (aln : Alignment) (peq : List Nat)
    (w maxNumBlocks queryLen : Nat) (target : List Nat) (k : Nat)
    (position : Option Nat) (alignData : Option AlignmentData)
    (targetStopPosition : Option Nat) :
    Except String (Alignment × Option Nat × Option AlignmentData) := do
  if targetStopPosition.isSome ∧ alignData.isSome then
    .error "Cannot set alignment and target_stop_position at same time."
  else
  if k < max target.length queryLen - min target.length queryLen then
    .ok (aln, position, alignData)
  else do
  let k := min k (max queryLen target.length)
  let lastBlockIdx ← nwInitLastBlockIdx k queryLen target.length maxNumBlocks
  let st : NwState := nwInitState lastBlockIdx k alignData
  let outcome ← nwLoop position peq w maxNumBlocks queryLen target.length
    targetStopPosition target 0 st
  nwFinish aln position target.length maxNumBlocks w outcome

/-- Rust slice indexing `&l[s..e]`, which panics when the range is
invalid or past the end. -/
def sliceRange (l : List Nat) (s e : Nat) : Except String (List Nat) :=
  if s ≤ e ∧ e ≤ l.length then .ok ((l.drop s).take (e - s))
  else .error "range out of bounds"

/-- `Alignment::obtain_optimal_path` (align.rs lines 319-348): the empty
query or target cases fill the alignment with deletions or insertions;
otherwise the body only computes reversed copies, the alphabet length,
`max_num_blocks` and `w`, none of which it uses, and returns with the
alignment field untouched. -/
def Alignment.obtainOptimalPath (aln : Alignment)
    (query target : List Nat) (_eqd : EqualityDefinition) :
    Except String Alignment :=
  if query.isEmpty then
    let ops := List.replicate (target.length + query.length) EditOp.Delete
    .ok { aln with alignment := some ops }
  else if target.isEmpty then
    let ops := List.replicate (target.length + query.length) EditOp.Insert
    .ok { aln with alignment := some ops }
  else .ok aln

/-- The engine dispatch of the retry loop of `Alignment::run` (align.rs
lines 194-217): one call of the engine of the chosen mode.  The rest of
the loop — doubling `k` (a usize multiplication that debug builds panic
on at overflow) and retrying while dynamic k is on and no distance was
found — follows in `runLoop`, whose fuel bounds the retries; running
out of it is reported like any other abnormal end. -/
def Alignment.runLoopStep (peq : List Nat) (w maxNumBlocks queryLen : Nat)
    (target : List Nat) (mode : AlignMode) (k : Nat) (aln : Alignment)
    (positionNw : Option Nat) : Except String (Alignment × Option Nat) :=
  match mode with
  | AlignMode.NW => do
    let (a, p, _) ← aln.calcEditDstNw peq w maxNumBlocks queryLen
      target k positionNw none none
    pure (a, p)
  | _ => do
    let a ← aln.calcEditDstSemiGlobal peq w maxNumBlocks queryLen
      target k mode
    pure (a, positionNw)

/-- The body of the retry loop proper: one engine call, then the
`k *= 2` doubling and the retry test. -/
def Alignment.runLoop (peq : List Nat) (w maxNumBlocks queryLen : Nat)
    (target : List Nat) (mode : AlignMode) (dynamicK : Bool) :
    Nat → Nat → Alignment → Option Nat →
    Except String (Alignment × Option Nat)
  | 0, _, _, _ => .error "internal: fuel exhausted"
  | fuel + 1, k, aln, positionNw => do
    let pr ← Alignment.runLoopStep peq w maxNumBlocks queryLen target mode
      k aln positionNw
    if k * 2 < 2 ^ 64 then
      if dynamicK ∧ pr.1.editDistance.isNone then
        Alignment.runLoop peq w maxNumBlocks queryLen target mode dynamicK
          fuel (k * 2) pr.1 pr.2
      else .ok pr
    else .error "attempt to multiply with overflow"

/-- The per-end-location loop of the HW start-position recovery
(align.rs lines 242-289).  Every write to `start_locations` is guarded
by an `if let Some(start_locs)` on `alignment.start_locations`, so a
`none` field is never populated here. -/
def hwStartStep (revPeq : List Nat) (w maxNumBlocks revTQlen : Nat)
    (revTT : List Nat) (ttLen : Nat) (loc : Int) (i : Nat)
    (aln : Alignment) : Except String Alignment :=
  if loc = -1 then
    match aln.startLocations with
    | some sl => do
      let sl2 ← vecSet sl i 0
      pure { aln with startLocations := some sl2 }
    | none => pure aln
  else do
    let locN ← intToUsize loc
    let a ← usub ttLen locN
    let revTargetIdx ← usub a 1
    let sym ← vecGet revTT revTargetIdx
    match aln.editDistance with
    | none => Except.error "called Option unwrap on a None value"
    | some dist => do
      let revAlignment ← Alignment.empty.calcEditDstSemiGlobal revPeq w
        maxNumBlocks revTQlen [sym] dist AlignMode.SHW
      match revAlignment.endLocations with
      | some rl => do
        let ll ← usub rl.length 1
        let rll ← vecGet rl ll
        match aln.startLocations with
        | some sl => do
          let sl2 ← vecSet sl i (loc - rll)
          pure { aln with startLocations := some sl2 }
        | none => pure aln
      | none => pure aln

/-- The iteration of `hwStartStep` over the end locations. -/
def hwStartLoop (revPeq : List Nat) (w maxNumBlocks revTQlen : Nat)
    (revTT : List Nat) (ttLen : Nat) :
    List Int → Nat → Alignment → Except String Alignment
  | [], _, aln => .ok aln
  | loc :: rest, i, aln => do
    let aln2 ← hwStartStep revPeq w maxNumBlocks revTQlen revTT ttLen loc
      i aln
    hwStartLoop revPeq w maxNumBlocks revTQlen revTT ttLen rest (i + 1) aln2

/-- The global-mode end-location write of align.rs lines 227-233. -/
def nwEndLoc (aln : Alignment) (config : AlignConfig) (ttLen : Nat) :
    Except String Alignment :=
  if config.mode = AlignMode.NW then do
    let tm1 ← usub ttLen 1
    let e ← natToIsize tm1
    pure { aln with endLocations := some [e] }
  else pure aln

/-- align.rs lines 226-299: once a distance exists, set the global end
location, and for the location and path tasks fill start locations —
via the reversed sweep for HW, as zeros for SHW and NW — in both cases
only into an already existing `start_locations` vector. -/
def Alignment.runLocationPhase (aln : Alignment) (config : AlignConfig)
    (eqd : EqualityDefinition) (alphabet tq tt : List Nat)
    (w maxNumBlocks : Nat) : Except String Alignment := do
  if aln.editDistance.isSome then do
    let aln ← nwEndLoc aln config tt.length
    if config.task = AlignTask.Loc ∨ config.task = AlignTask.Path then
      if config.mode = AlignMode.HW then do
        let revTT := tt.reverse
        let revTQ := tq.reverse
        let revPeq ← buildPeqTable alphabet.length revTQ eqd
        match aln.endLocations with
        | none => .error "No end locations."
        | some locs =>
          hwStartLoop revPeq w maxNumBlocks revTQ.length revTT tt.length
            locs 0 aln
      else
        match aln.startLocations with
        | some sl =>
          pure { aln with startLocations := some (sl.map fun _ => 0) }
        | none => pure aln
    else pure aln
  else pure aln

/-- align.rs lines 300-315: for the path task, read the first start and
end locations (that indexing panics on an empty vector, while a missing
vector is the bail), slice the target between them, and run the
traceback. -/
def Alignment.runPathPhase (aln : Alignment) (config : AlignConfig)
    (eqd : EqualityDefinition) (tq tt : List Nat) :
    Except String Alignment := do
  if config.task = AlignTask.Path then do
    let s0? ←
      match aln.startLocations with
      | some sl => do
        let v ← vecGet sl 0
        pure (some v)
      | none => pure none
    let e0? ←
      match aln.endLocations with
      | some el => do
        let v ← vecGet el 0
        pure (some v)
      | none => pure none
    match s0?, e0? with
    | some s0, some e0 => do
      let s0N ← intToUsize s0
      let e0N ← intToUsize e0
      let alnTarget ← sliceRange tt s0N e0N
      aln.obtainOptimalPath tq alnTarget eqd

    | _, _ => .error "No start locations."
  else .ok aln

/-- `Alignment::run` (align.rs lines 138-317).  The sequences are lists
of code points; the fuel feeds the dynamic-k retry loop. -/
def Alignment.run (fuel : Nat) (config : AlignConfig)
    (query target : List Nat) : Except String Alignment := do
  let tr ← transformSequences query target
  let alphabet := tr.1
  let tq := tr.2.1
  let tt := tr.2.2
  let aln := { Alignment.empty with alphabetLength := alphabet.length }
  if tq.isEmpty ∨ tt.isEmpty then
    match config.mode with
    | AlignMode.NW =>
      .ok { aln with editDistance := some (max tq.length tt.length),
                     endLocations := some [(tt.length : Int) - 1] }
    | _ =>
      .ok { aln with editDistance := some tq.length,
                     endLocations := some [(-1 : Int)] }
  else do
    let maxNumBlocks := ceilDiv tq.length wordSize
    let w := maxNumBlocks * wordSize - tq.length
    let eqd := EqualityDefinition.new alphabet config.addedEqualities
    let peq ← buildPeqTable alphabet.length tq eqd
    let dynamicK := config.k.isNone
    let k0 := config.k.getD wordSize
    let lp ← Alignment.runLoop peq w maxNumBlocks tq.length tt
      config.mode dynamicK fuel k0 aln none
    let aln ← lp.1.runLocationPhase config eqd alphabet tq tt w maxNumBlocks
    aln.runPathPhase config eqd tq tt

/-- The alphabet order stated by the spec: symbols listed by first
appearance, scanning the query left to right and then the target. -/
def firstAppearancesAux (acc : List Nat) : List Nat → List Nat
  | [] => acc
  | c :: rest =>
    firstAppearancesAux (if c ∈ acc then acc else acc ++ [c]) rest

/-- Symbols of a sequence in first-appearance order. -/
def firstAppearances (l : List Nat) : List Nat := firstAppearancesAux [] l

/-- The initial last-block index stated by the spec for every sweep:
`min(ceil((k+1)/W), maxBlocks) - 1`. -/
def specInitLastBlockIdx (k maxNumBlocks : Nat) : Nat :=
  min (ceilDiv (k + 1) wordSize) maxNumBlocks - 1

/-- A 65 character query of pairwise distinct symbols: its transformed
form is `[0, ..., 64]` and it occupies two blocks with `w = 63`. -/
def queryC5 : List Nat := List.range 65

/-- A 64 column target over the alphabet of `queryC5`; its column 62
holds symbol 1, so the claimed in-loop end position for that column
would be `62 - w = -1`. -/
def targetC5 : List Nat :=
  [0, 1, 63, 1, 1, 2, 1, 3, 1, 4, 1, 5, 1, 6, 1, 7, 1, 8, 1, 9, 1, 10,
   1, 11, 1, 12, 1, 13, 1, 14, 1, 15, 1, 16, 1, 17, 1, 18, 1, 19, 1, 20,
   1, 21, 1, 22, 1, 23, 1, 24, 1, 25, 1, 26, 1, 27, 1, 28, 1, 29, 1, 30,
   1, 1]

/-- The identity equality definition over the `queryC5` alphabet. -/
def eqdC5 : EqualityDefinition := EqualityDefinition.new queryC5 []

/-- The query profile that `build_peq_table` produces for `queryC5`
(row of symbol `i < 64`: bit `i` in block 0 and the wildcard-padded
block 1; row of symbol 64: bit 0 plus padding, all ones, in block 1;
wildcard row: all ones). -/
def peqC5 : List Nat :=
  ((List.range 64).map (fun i => [2 ^ i, 2 ^ 64 - 2])).flatten ++
    [0, 2 ^ 64 - 1, 2 ^ 64 - 1, 2 ^ 64 - 1]

/-- The expected end locations of the `targetC5` sweep: the two in-loop
recordings at columns 62 and 63 (both on symbol 1) each contribute
`1 - w = -62`, followed by the after-loop emissions. -/
def endLocationsC5 : List Int :=
  [-62, -62] ++ (List.range 63).map (fun i => (1 : Int) + i)

/-!
The claims.  Each claim of the specification audit gets exactly one
theorem below (plus, where needed, a counterexample and a witness); the
lemmas in between are shared helpers.
-/

/-- Two naturals are conjunction-free exactly when no bit is shared. -/
theorem and_eq_zero_of_testBit (x y : Nat)
    (h : ∀ i, ¬(x.testBit i = true ∧ y.testBit i = true)) : x &&& y = 0 := by
  apply Nat.eq_of_testBit_eq
  intro i
  simp only [Nat.testBit_land, Nat.zero_testBit]
  have := h i
  rcases hx : x.testBit i <;> rcases hy : y.testBit i <;> simp_all

/-- From a zero conjunction, a set bit on one side is clear on the
other. -/
theorem testBit_and_eq (x y : Nat) (i : Nat) (h : x &&& y = 0)
    (hx : x.testBit i = true) : y.testBit i = false := by
  by_contra hc
  have hy : y.testBit i = true := by
    rcases hb : y.testBit i
    · exact absurd hb hc
    · rfl
  have h2 : (x &&& y).testBit i = true := by
    simp [Nat.testBit_land, hx, hy]
  rw [h] at h2
  simp [Nat.zero_testBit] at h2

/-- A number at most one has no bits above bit zero. -/
theorem small_high_bit (x j : Nat) (hx : x ≤ 1) :
    x.testBit (j + 1) = false := by
  apply Nat.testBit_lt_two_pow
  calc x ≤ 1 := hx
    _ < 2 ^ (j + 1) := by
        have := Nat.one_lt_two_pow_iff (n := j + 1)
        omega

/-- The shifted, injected `Mh` and `Ph` vectors of the advance-block
step share no bit. -/
theorem shifted_disjoint (p m xh injBit hinNegBit : Nat)
    (hpm : p &&& m = 0) (hinjb : injBit ≤ 1) (hnegb : hinNegBit ≤ 1)
    (hnb : ¬(injBit = 1 ∧ hinNegBit = 1)) :
    ((((p &&& xh) <<< 1) % 2 ^ 64) ||| hinNegBit) &&&
      ((((m ||| wnot (xh ||| p)) <<< 1) % 2 ^ 64) ||| injBit) = 0 := by
  apply and_eq_zero_of_testBit
  intro i hcontra
  obtain ⟨hMH, hPH⟩ := hcontra
  simp only [Nat.testBit_lor, Nat.testBit_mod_two_pow, Nat.testBit_shiftLeft,
    wnot, wordMax, Nat.testBit_xor, Nat.testBit_two_pow_sub_one,
    Nat.testBit_land, Bool.or_eq_true, Bool.and_eq_true,
    decide_eq_true_eq] at hMH hPH
  cases i with
  | zero =>
    have h1 : hinNegBit.testBit 0 = true := by
      rcases hMH with ⟨_, hge, _⟩ | h1
      · omega
      · exact h1
    have h2 : injBit.testBit 0 = true := by
      rcases hPH with ⟨_, hge, _⟩ | h2
      · omega
      · exact h2
    have e1 : hinNegBit = 1 := by
      interval_cases hinNegBit
      · simp [Nat.zero_testBit] at h1
      · rfl
    have e2 : injBit = 1 := by
      interval_cases injBit
      · simp [Nat.zero_testBit] at h2
      · rfl
    exact hnb ⟨e2, e1⟩
  | succ j =>
    have hMH2 : j + 1 < 64 ∧ j + 1 ≥ 1 ∧ p.testBit j = true ∧
        xh.testBit j = true := by
      rcases hMH with h | h
      · exact h
      · rw [small_high_bit hinNegBit j hnegb] at h
        exact absurd h Bool.false_ne_true
    have hPH2 : j + 1 < 64 ∧ j + 1 ≥ 1 ∧ (m.testBit j = true ∨
        ((xh.testBit j || p.testBit j) ^^ decide (j < 64)) = true) := by
      rcases hPH with h | h
      · exact h
      · rw [small_high_bit injBit j hinjb] at h
        exact absurd h Bool.false_ne_true
    obtain ⟨hlt, _, hMHc⟩ := hMH2
    obtain ⟨_, _, hPHc⟩ := hPH2
    simp only [Nat.testBit_land, Bool.and_eq_true] at hMHc
    obtain ⟨hpj, hxhj⟩ := hMHc
    have hj64 : j < 64 := by omega
    rcases hPHc with hmj | hW
    · have hmf := testBit_and_eq p m j hpm hpj
      rw [hmf] at hmj
      exact Bool.false_ne_true hmj
    · rw [hpj, hxhj] at hW
      simp [hj64] at hW

/-- The output vectors `P' = X | ~(Z | Y)` and `M' = Y & Z` are
disjoint whenever `X` and `Y` are. -/
theorem pprime_mprime_disjoint (x y z : Nat) (hXY : x &&& y = 0)
    (hY : y < 2 ^ 64) :
    (x ||| wnot (z ||| y)) &&& (y &&& z) = 0 := by
  apply and_eq_zero_of_testBit
  intro i hcontra
  obtain ⟨hL, hR⟩ := hcontra
  simp only [Nat.testBit_lor, Nat.testBit_land, wnot, wordMax,
    Nat.testBit_xor, Nat.testBit_two_pow_sub_one, Bool.or_eq_true,
    Bool.and_eq_true] at hL hR
  obtain ⟨hYi, hZi⟩ := hR
  rcases hL with hX | hW
  · have hf := testBit_and_eq x y i hXY hX
    rw [hf] at hYi
    exact Bool.false_ne_true hYi
  · by_cases h64 : i < 64
    · rw [hZi, hYi] at hW
      simp [h64] at hW
    · have hf : y.testBit i = false := by
        apply Nat.testBit_lt_two_pow
        calc y < 2 ^ 64 := hY
          _ ≤ 2 ^ i := Nat.pow_le_pow_right (by norm_num) (by omega)
      rw [hf] at hYi
      exact Bool.false_ne_true hYi

/-- An `or` of two words stays below the word bound. -/
theorem lor_lt_two_pow_64 (a b : Nat) (ha : a < 2 ^ 64) (hb : b < 2 ^ 64) :
    a ||| b < 2 ^ 64 := by
  have h : a ||| b = Nat.bitwise or a b := rfl
  rw [h]
  exact Nat.bitwise_lt ha hb

/-- Reading the top bit through the mask is at most one. -/
theorem top_bit_le_one (x : Nat) : (x &&& 2 ^ 63) >>> 63 ≤ 1 := by
  have h : (x &&& 2 ^ 63) >>> 63 = (x >>> 63) &&& 1 := by
    apply Nat.eq_of_testBit_eq
    intro i
    have h1 : (1 : Nat) = 2 ^ 0 := rfl
    simp only [Nat.testBit_shiftRight, Nat.testBit_land, h1,
      Nat.testBit_two_pow]
    rcases Nat.eq_zero_or_pos i with hi | hi
    · subst hi; simp
    · have h63 : ¬(63 = 63 + i) := by omega
      have h0 : ¬(0 = i) := by omega
      simp [h63, h0]
  rw [h]
  exact Nat.and_le_right

/-- The two ways of reading the top bit agree: mask-then-shift equals
shift-then-mask. -/
theorem highBitShiftEq (x : Nat) :
    (x &&& highBitMask) >>> (wordSize - 1) = (x >>> (wordSize - 1)) &&& 1 := by
  have h : highBitMask = 2 ^ 63 := rfl
  have hw : wordSize - 1 = 63 := rfl
  rw [h, hw]
  apply Nat.eq_of_testBit_eq
  intro i
  have h1 : (1 : Nat) = 2 ^ 0 := rfl
  simp only [Nat.testBit_shiftRight, Nat.testBit_land, h1,
    Nat.testBit_two_pow]
  rcases Nat.eq_zero_or_pos i with hi | hi
  · subst hi; simp
  · have h63 : ¬(63 = 63 + i) := by omega
    have h0 : ¬(0 = i) := by omega
    simp [h63, h0]

/-- The disjointness of the advance-block output vectors, stated over
the raw word expressions of the recurrence. -/
theorem c2_generic (p m xv xh : Nat) (injBit hinNegBit : Nat)
    (_hxv : xv < 2 ^ 64)
    (hpm : p &&& m = 0) (hinjb : injBit ≤ 1) (hnegb : hinNegBit ≤ 1)
    (hnb : ¬(injBit = 1 ∧ hinNegBit = 1)) :
    (((((p &&& xh) <<< 1) % 2 ^ 64) ||| hinNegBit) |||
        wnot (xv ||| ((((m ||| wnot (xh ||| p)) <<< 1) % 2 ^ 64) ||| injBit))) &&&
      (((((m ||| wnot (xh ||| p)) <<< 1) % 2 ^ 64) ||| injBit) &&& xv) = 0 := by
  apply pprime_mprime_disjoint _ _ _
    (shifted_disjoint p m xh injBit hinNegBit hpm hinjb hnegb hnb)
  apply lor_lt_two_pow_64
  · exact Nat.mod_lt _ (by norm_num)
  · calc injBit ≤ 1 := hinjb
      _ < 2 ^ 64 := by norm_num

/-- Claim C1, counterexample: at the block `(P, M, score) = (0, 0, 0)`
with `Eq = 0` and `hin = 0`, `calculate_hout_delta` does not return the
block and delta that spec section 4.4 prescribes, because the source
sets bit 0 of the shifted `Ph` only for `hin = +1` while the spec sets
it for every `hin ≥ 0`. -/
theorem claim1_counterexample :
    Block.calculateHoutDelta ⟨0, 0, 0⟩ 0 0 ≠
      some (specAdvanceBlock ⟨0, 0, 0⟩ 0 0) := by decide

/-- Claim C1 (amended): for every block state with `P & M = 0`, every
`Eq` word and every `hin` in `{-1, 0, +1}`, `calculate_hout_delta`
returns exactly the block and horizontal delta of the section 4.4
recurrence amended so that bit 0 of the shifted `Ph` is set only when
`hin` is strictly positive. -/
theorem claim1_theorem (b : Block) (eq0 : Nat) (hin : Int)
    (_hpm : b.p &&& b.m = 0) (hhin : hin = -1 ∨ hin = 0 ∨ hin = 1) :
    b.calculateHoutDelta eq0 hin =
      some (specAdvanceBlockAmended b eq0 hin) := by
  rcases hhin with h | h | h <;> subst h <;>
    simp [Block.calculateHoutDelta, specAdvanceBlockAmended, hinIsNeg,
      highBitShiftEq, Int.fdiv]

/-- Claim C1, witness discharging the hypotheses at a concrete block. -/
theorem claim1_witness :
    Block.calculateHoutDelta ⟨2 ^ 63, 1, 5⟩ 12345 0 =
      some (specAdvanceBlockAmended ⟨2 ^ 63, 1, 5⟩ 12345 0) :=
  claim1_theorem ⟨2 ^ 63, 1, 5⟩ 12345 0 (by decide) (Or.inr (Or.inl rfl))

/-- Claim C2: for every block state with `P & M = 0`, every `Eq` word
and every `hin` in `{-1, 0, +1}`, `calculate_hout_delta` succeeds, the
updated block again satisfies `P & M = 0`, and the returned `hout` lies
in `{-1, 0, +1}`. -/
theorem claim2_theorem (b : Block) (eq0 : Nat) (hin : Int)
    (heq : eq0 < 2 ^ 64) (hm : b.m < 2 ^ 64)
    (hpm : b.p &&& b.m = 0) (hhin : hin = -1 ∨ hin = 0 ∨ hin = 1) :
    ∃ b2 hout, b.calculateHoutDelta eq0 hin = some (b2, hout) ∧
      b2.p &&& b2.m = 0 ∧ (hout = -1 ∨ hout = 0 ∨ hout = 1) := by
  have hinj0 : ¬(Int.fdiv (hin + 1) 2 < 0) := by
    rcases hhin with h | h | h <;> subst h <;> decide
  cases hval : b.calculateHoutDelta eq0 hin with
  | none =>
    exfalso
    simp only [Block.calculateHoutDelta] at hval
    rw [if_neg hinj0] at hval
    exact Option.some_ne_none _ hval
  | some pr =>
    obtain ⟨b2, hout⟩ := pr
    have hval0 := hval
    simp only [Block.calculateHoutDelta] at hval0
    rw [if_neg hinj0, Option.some.injEq, Prod.mk.injEq] at hval0
    obtain ⟨hS, hH⟩ := hval0
    have hP := congrArg Block.p hS
    have hM := congrArg Block.m hS
    refine ⟨b2, hout, rfl, ?_, ?_⟩
    · rw [← hP, ← hM]
      apply c2_generic
      · exact lor_lt_two_pow_64 _ _ heq hm
      · exact hpm
      · rcases hhin with h | h | h <;> subst h <;> decide
      · unfold hinIsNeg
        split <;> omega
      · intro hboth
        obtain ⟨h1, h2⟩ := hboth
        unfold hinIsNeg at h2
        rcases hhin with h | h | h <;> subst h <;> simp_all
    · have h1 := top_bit_le_one (b.m |||
        wnot ((((((eq0 ||| hinIsNeg hin) &&& b.p) + b.p) % 2 ^ 64 ^^^ b.p) |||
          (eq0 ||| hinIsNeg hin)) ||| b.p))
      have h2 := top_bit_le_one (b.p &&&
        (((((eq0 ||| hinIsNeg hin) &&& b.p) + b.p) % 2 ^ 64 ^^^ b.p) |||
          (eq0 ||| hinIsNeg hin)))
      rw [← hH]
      simp only [highBitMask, wordSize]
      omega

/-- Claim C2, witness discharging the hypotheses at a concrete block. -/
theorem claim2_witness :
    ∃ b2 hout,
      Block.calculateHoutDelta ⟨2 ^ 63, 1, 5⟩ 777 (-1) = some (b2, hout) ∧
      b2.p &&& b2.m = 0 ∧ (hout = -1 ∨ hout = 0 ∨ hout = 1) :=
  claim2_theorem ⟨2 ^ 63, 1, 5⟩ 777 (-1) (by decide) (by decide) (by decide)
    (Or.inl rfl)

/-- Claim C3, evaluation at the failing input: for the block
`P = 2 ^ 62, M = 0, score = 0` the source `get_cell_values`, which tests
the constant high bit instead of its moving mask, returns 64 zero
entries, while the section 3 formula gives `-1` for row 61 (list entry
`63 - 61 = 2` scanning from the high bit down). -/
theorem claim3_code_evaluation :
    Block.getCellValues ⟨2 ^ 62, 0, 0⟩ = List.replicate 64 0 ∧
    (Block.getCellValues ⟨2 ^ 62, 0, 0⟩).get? 2 = some 0 ∧
    specCellValue ⟨2 ^ 62, 0, 0⟩ 61 = -1 := by decide

/-- Bind of a success, for rewriting inside `Except` programs. -/
theorem exceptBind_ok {α β : Type} (a : α) (f : α → Except String β) :
    (Except.ok a >>= f) = f a := rfl

/-- Bind of an error, for rewriting inside `Except` programs. -/
theorem exceptBind_error {α β : Type} (e : String)
    (f : α → Except String β) :
    ((Except.error e : Except String α) >>= f) = Except.error e := rfl

/-- Claim C4, counterexample: at `k = 1` with a one-block query, the
semi-global sweep starts its band cursor at block index 1 — the source
computes `min(k + 1 / word_size, max_num_blocks)`, which is `min(k,
maxBlocks)` — whereas the claim prescribes
`min(ceil((k+1)/W), maxBlocks) - 1 = 0`. -/
theorem claim4_counterexample :
    sgInitLastBlockIdx 1 1 = 1 ∧ specInitLastBlockIdx 1 1 = 0 ∧
    sgInitLastBlockIdx 1 1 ≠ specInitLastBlockIdx 1 1 := by decide

/-- Claim C4 (amended): both engines enter their column loop with
`firstBlock = 0` and block `b` of the stack initialised to `P` all
ones, `M = 0`, `score = (b+1) * W`; the initial `lastBlock` is
`min(k + 1/W, maxBlocks) = min(k, maxBlocks)` in the semi-global engine
(no ceiling, no decrement, by the precedence of the expression as
written), while the global engine computes
`min(maxBlocks, min(k, (k + |query| - |target|/2) + 1) / W) - 1` in
usize arithmetic, panicking when `|target|/2` exceeds `k + |query|` or
when the outer min is 0, and producing that min less one otherwise. -/
theorem claim4_theorem (k maxNumBlocks b queryLen targetLen
    lastIdx : Nat) (kInt : Int) (ad : Option AlignmentData)
    (hb : b ≤ lastIdx) :
    (sgInitState lastIdx kInt).firstBlockIdx = 0 ∧
    (nwInitState lastIdx k ad).firstBlockIdx = 0 ∧
    (sgInitState lastIdx kInt).blocks = initBlocks lastIdx ∧
    (nwInitState lastIdx k ad).blocks = initBlocks lastIdx ∧
    (initBlocks lastIdx).get? b =
      some ⟨wordMax, 0, ((b + 1) * wordSize : Nat)⟩ ∧
    sgInitLastBlockIdx k maxNumBlocks = min k maxNumBlocks ∧
    nwInitLastBlockIdx k queryLen targetLen maxNumBlocks =
      (if k + queryLen < targetLen / 2 then
        .error "attempt to subtract with overflow"
       else if min maxNumBlocks
           (min k (k + queryLen - targetLen / 2 + 1) / wordSize) = 0 then
        .error "attempt to subtract with overflow"
       else
        .ok (min maxNumBlocks
          (min k (k + queryLen - targetLen / 2 + 1) / wordSize) - 1)) := by
  refine ⟨rfl, rfl, rfl, rfl, ?_, ?_, ?_⟩
  · have hlt : b < lastIdx + 1 := Nat.lt_succ_of_le hb
    simp [initBlocks, List.get?_eq_getElem?, List.getElem?_map,
      List.getElem?_range, hlt]
  · simp [sgInitLastBlockIdx, wordSize]
  · unfold nwInitLastBlockIdx
    by_cases h1 : k + queryLen < targetLen / 2
    · rw [if_pos h1]
      have e1 : usub (k + queryLen) (targetLen / 2) =
          .error "attempt to subtract with overflow" := by
        simp [usub]
        omega
      rw [e1, exceptBind_error]
    · rw [if_neg h1]
      have e1 : usub (k + queryLen) (targetLen / 2) =
          Except.ok (k + queryLen - targetLen / 2) := by
        simp [usub]
        omega
      rw [e1, exceptBind_ok]
      by_cases h2 : min maxNumBlocks
          (min k (k + queryLen - targetLen / 2 + 1) / wordSize) = 0
      · rw [if_pos h2]
        simp [usub, h2]
      · rw [if_neg h2]
        unfold usub
        rw [if_pos (Nat.one_le_iff_ne_zero.mpr h2)]

/-- Claim C4, witness: the theorem applied at `k = 1`, two blocks and
two 65-character sequences — there the global min is 0 and the
characterisation yields the underflow panic — followed by concrete
evaluations of the two remaining branches of the global
characterisation: a successful initialisation and the
`|target|/2 > k + |query|` panic. -/
theorem claim4_witness :
    ((sgInitState 1 1).firstBlockIdx = 0 ∧
     (nwInitState 1 1 none).firstBlockIdx = 0 ∧
     (sgInitState 1 1).blocks = initBlocks 1 ∧
     (nwInitState 1 1 none).blocks = initBlocks 1 ∧
     (initBlocks 1).get? 0 =
       some ⟨wordMax, 0, ((0 + 1) * wordSize : Nat)⟩ ∧
     sgInitLastBlockIdx 1 2 = min 1 2 ∧
     nwInitLastBlockIdx 1 65 65 2 =
       (if 1 + 65 < 65 / 2 then
         .error "attempt to subtract with overflow"
        else if min 2 (min 1 (1 + 65 - 65 / 2 + 1) / wordSize) = 0 then
         .error "attempt to subtract with overflow"
        else
         .ok (min 2 (min 1 (1 + 65 - 65 / 2 + 1) / wordSize) - 1))) ∧
    nwInitLastBlockIdx 1 65 65 2 =
      .error "attempt to subtract with overflow" ∧
    nwInitLastBlockIdx 66 65 2 2 = .ok 0 ∧
    nwInitLastBlockIdx 1 1 10 1 =
      .error "attempt to subtract with overflow" :=
  ⟨claim4_theorem 1 2 0 65 65 1 1 none (by decide), by decide, by decide,
    by decide⟩

/-- Claim C5, evaluation at the failing input: the 65-symbol pairwise
distinct query (profile `peqC5`), the 64-column target `targetC5`,
`k = 65` and infix (HW) mode.  The in-loop recordings happen at columns
62 and 63, both of which hold symbol 1, and each records
`1 - w = -62` where the claim prescribes column minus `w`, that is `-1`
and `0`; the sweep ends with `[-62, -62, ...]` as its end locations. -/
theorem claim5_code_evaluation :
    Alignment.empty.calcEditDstSemiGlobal peqC5 63 2 65 targetC5 65
      AlignMode.HW =
    .ok { editDistance := some 65, endLocations := some endLocationsC5,
          startLocations := none, alignment := none, alphabetLength := 0 } := by
  decide

/-- Claim C6, evaluation at the failing input: aligning the one-letter
sequences (code point 65) in global mode with explicit `k = 2` and task
Distance — a solution of distance 0 exists within `k` — panics while
computing the initial last block index, instead of producing a result
with the distance and end position. -/
theorem claim6_code_evaluation :
    Alignment.run 4
      { k := some 2, mode := AlignMode.NW, task := AlignTask.Distance,
        addedEqualities := [] } [65] [65] =
    .error "attempt to subtract with overflow" := by decide

/-- Inversion for a successful `Except` bind. -/
theorem bind_eq_ok {α β : Type} {x : Except String α}
    {f : α → Except String β} {r : β} (h : (x >>= f) = .ok r) :
    ∃ a, x = .ok a ∧ f a = .ok r := by
  cases x with
  | ok a => exact ⟨a, rfl, h⟩
  | error e =>
    rw [exceptBind_error] at h
    exact absurd h (by simp)

/-- `sgOutput` never touches the start locations or the alignment. -/
theorem sgOutput_preserves (aln : Alignment) (best : Option Nat)
    (positions : List Int) :
    (sgOutput aln best positions).startLocations = aln.startLocations ∧
    (sgOutput aln best positions).alignment = aln.alignment := by
  unfold sgOutput
  split <;> exact ⟨rfl, rfl⟩

/-- The semi-global sweep only writes the distance and end locations. -/
theorem sgPreserves {aln : Alignment} {peq : List Nat}
    {w maxNumBlocks queryLen : Nat} {target : List Nat} {k : Nat}
    {mode : AlignMode} {r : Alignment}
    (h : aln.calcEditDstSemiGlobal peq w maxNumBlocks queryLen target k
      mode = .ok r) :
    r.startLocations = aln.startLocations ∧ r.alignment = aln.alignment := by
  unfold Alignment.calcEditDstSemiGlobal at h
  obtain ⟨bp, _, h⟩ := bind_eq_ok h
  simp only [Except.ok.injEq] at h
  rw [← h]
  exact sgOutput_preserves aln bp.1 bp.2

/-- The finish step of the global sweep only writes the distance. -/
theorem nwFinish_preserves {aln : Alignment} {position : Option Nat}
    {targetLen maxNumBlocks w : Nat} {outcome : NwOutcome}
    {a : Alignment} {p : Option Nat} {ad : Option AlignmentData}
    (h : nwFinish aln position targetLen maxNumBlocks w outcome =
      .ok (a, p, ad)) :
    a.startLocations = aln.startLocations ∧ a.alignment = aln.alignment := by
  cases outcome with
  | ret p0 ad0 =>
    simp only [nwFinish, Except.ok.injEq, Prod.mk.injEq] at h
    rw [← h.1]
    exact ⟨rfl, rfl⟩
  | finished st =>
    simp only [nwFinish] at h
    split at h
    · obtain ⟨blk, _, h⟩ := bind_eq_ok h
      obtain ⟨lastBest, _, h⟩ := bind_eq_ok h
      obtain ⟨kI, _, h⟩ := bind_eq_ok h
      split at h
      · split at h
        · obtain ⟨v, _, h⟩ := bind_eq_ok h
          obtain ⟨tm1, _, h⟩ := bind_eq_ok h
          simp only [Except.ok.injEq, Prod.mk.injEq] at h
          rw [← h.1]
          exact ⟨rfl, rfl⟩
        · simp only [Except.ok.injEq, Prod.mk.injEq] at h
          rw [← h.1]
          exact ⟨rfl, rfl⟩
      · simp only [Except.ok.injEq, Prod.mk.injEq] at h
        rw [← h.1]
        exact ⟨rfl, rfl⟩
    · simp only [Except.ok.injEq, Prod.mk.injEq] at h
      rw [← h.1]
      exact ⟨rfl, rfl⟩

/-- The global sweep only writes the distance. -/
theorem nwPreserves {aln : Alignment} {peq : List Nat}
    {w maxNumBlocks queryLen : Nat} {target : List Nat} {k : Nat}
    {position : Option Nat} {alignData : Option AlignmentData}
    {targetStopPosition : Option Nat}
    {a : Alignment} {p : Option Nat} {ad : Option AlignmentData}
    (h : aln.calcEditDstNw peq w maxNumBlocks queryLen target k position
      alignData targetStopPosition = .ok (a, p, ad)) :
    a.startLocations = aln.startLocations ∧ a.alignment = aln.alignment := by
  unfold Alignment.calcEditDstNw at h
  split at h
  · exact absurd h (by simp)
  · split at h
    · simp only [Except.ok.injEq, Prod.mk.injEq] at h
      rw [← h.1]
      exact ⟨rfl, rfl⟩
    · obtain ⟨lastBlockIdx, _, h⟩ := bind_eq_ok h
      obtain ⟨outcome, _, h⟩ := bind_eq_ok h
      exact nwFinish_preserves h

/-- One engine call of the retry loop only writes the distance and end
locations. -/
theorem runLoopStepPreserves {peq : List Nat}
    {w maxNumBlocks queryLen : Nat} {target : List Nat} {mode : AlignMode}
    {k : Nat} {aln : Alignment} {positionNw : Option Nat}
    {r : Alignment} {p2 : Option Nat}
    (h : Alignment.runLoopStep peq w maxNumBlocks queryLen target mode k
      aln positionNw = .ok (r, p2)) :
    r.startLocations = aln.startLocations ∧ r.alignment = aln.alignment := by
  cases mode with
  | NW =>
    simp only [Alignment.runLoopStep] at h
    obtain ⟨triple, htr, h⟩ := bind_eq_ok h
    obtain ⟨a1, p1, ad1⟩ := triple
    simp only [pure, Except.pure, Except.ok.injEq, Prod.mk.injEq] at h
    rw [← h.1]
    exact nwPreserves htr
  | SHW =>
    simp only [Alignment.runLoopStep] at h
    obtain ⟨a1, htr, h⟩ := bind_eq_ok h
    simp only [pure, Except.pure, Except.ok.injEq, Prod.mk.injEq] at h
    rw [← h.1]
    exact sgPreserves htr
  | HW =>
    simp only [Alignment.runLoopStep] at h
    obtain ⟨a1, htr, h⟩ := bind_eq_ok h
    simp only [pure, Except.pure, Except.ok.injEq, Prod.mk.injEq] at h
    rw [← h.1]
    exact sgPreserves htr

/-- The retry loop only writes the distance and end locations. -/
theorem runLoopPreserves (peq : List Nat) (w maxNumBlocks queryLen : Nat)
    (target : List Nat) (mode : AlignMode) (dynamicK : Bool) :
    ∀ (fuel k : Nat) (aln : Alignment) (positionNw : Option Nat)
      (r : Alignment) (p2 : Option Nat),
      Alignment.runLoop peq w maxNumBlocks queryLen target mode dynamicK
        fuel k aln positionNw = .ok (r, p2) →
      r.startLocations = aln.startLocations ∧ r.alignment = aln.alignment := by
  intro fuel
  induction fuel with
  | zero =>
    intro k aln positionNw r p2 h
    exact absurd h (by simp [Alignment.runLoop])
  | succ fuel ih =>
    intro k aln positionNw r p2 h
    unfold Alignment.runLoop at h
    obtain ⟨pr, hpr, h⟩ := bind_eq_ok h
    obtain ⟨aln1, pos1⟩ := pr
    have hstep := runLoopStepPreserves hpr
    split at h
    · split at h
      · have hrec := ih (k * 2) aln1 pos1 r p2 h
        exact ⟨hrec.1.trans hstep.1, hrec.2.trans hstep.2⟩
      · simp only [Except.ok.injEq, Prod.mk.injEq] at h
        rw [← h.1]
        exact hstep
    · exact absurd h (by simp)

/-- One step of the HW start recovery leaves an alignment without a
start-location vector completely unchanged. -/
theorem hwStartStepPreserves {revPeq : List Nat}
    {w maxNumBlocks revTQlen : Nat} {revTT : List Nat} {ttLen : Nat}
    {loc : Int} {i : Nat} {aln r : Alignment}
    (hstart : aln.startLocations = none)
    (h : hwStartStep revPeq w maxNumBlocks revTQlen revTT ttLen loc i aln
      = .ok r) : r = aln := by
  unfold hwStartStep at h
  rw [hstart] at h
  split at h
  · simp only [pure, Except.pure, Except.ok.injEq] at h
    exact h.symm
  · obtain ⟨locN, _, h⟩ := bind_eq_ok h
    obtain ⟨a, _, h⟩ := bind_eq_ok h
    obtain ⟨ri, _, h⟩ := bind_eq_ok h
    obtain ⟨sym, _, h⟩ := bind_eq_ok h
    split at h
    · exact absurd h (by simp)
    · obtain ⟨rev, _, h⟩ := bind_eq_ok h
      split at h
      · obtain ⟨ll, _, h⟩ := bind_eq_ok h
        obtain ⟨rll, _, h⟩ := bind_eq_ok h
        simp only [pure, Except.pure, Except.ok.injEq] at h
        exact h.symm
      · simp only [pure, Except.pure, Except.ok.injEq] at h
        exact h.symm

/-- The whole HW start recovery leaves an alignment without a
start-location vector completely unchanged. -/
theorem hwStartLoopPreserves (revPeq : List Nat)
    (w maxNumBlocks revTQlen : Nat) (revTT : List Nat) (ttLen : Nat) :
    ∀ (locs : List Int) (i : Nat) (aln r : Alignment),
      aln.startLocations = none →
      hwStartLoop revPeq w maxNumBlocks revTQlen revTT ttLen locs i aln
        = .ok r → r = aln
  | [], _, _, _, _, h => by
    simp only [hwStartLoop, Except.ok.injEq] at h
    exact h.symm
  | loc :: rest, i, aln, r, hstart, h => by
    unfold hwStartLoop at h
    obtain ⟨aln2, h1, h2⟩ := bind_eq_ok h
    rw [hwStartStepPreserves hstart h1] at h2
    exact hwStartLoopPreserves revPeq w maxNumBlocks revTQlen revTT ttLen
      rest (i + 1) aln r hstart h2

/-- The location phase never creates a start-location vector and never
writes the alignment field. -/
theorem runLocationPhasePreserves {aln : Alignment} {config : AlignConfig}
    {eqd : EqualityDefinition} {alphabet tq tt : List Nat}
    {w maxNumBlocks : Nat} {r : Alignment}
    (hstart : aln.startLocations = none)
    (h : aln.runLocationPhase config eqd alphabet tq tt w maxNumBlocks
      = .ok r) :
    r.startLocations = none ∧ r.alignment = aln.alignment := by
  unfold Alignment.runLocationPhase at h
  split at h
  · obtain ⟨aln1, h1, h⟩ := bind_eq_ok h
    have haln1 : aln1.startLocations = none ∧ aln1.alignment = aln.alignment := by
      unfold nwEndLoc at h1
      split at h1
      · obtain ⟨tm1, _, h1⟩ := bind_eq_ok h1
        obtain ⟨e, _, h1⟩ := bind_eq_ok h1
        simp only [pure, Except.pure, Except.ok.injEq] at h1
        rw [← h1]
        exact ⟨hstart, rfl⟩
      · simp only [pure, Except.pure, Except.ok.injEq] at h1
        rw [← h1]
        exact ⟨hstart, rfl⟩
    split at h
    · split at h
      · obtain ⟨revPeq, _, h⟩ := bind_eq_ok h
        split at h
        · exact absurd h (by simp)
        · have := hwStartLoopPreserves revPeq w maxNumBlocks tq.reverse.length
            tt.reverse tt.length _ 0 aln1 r haln1.1 h
          rw [this]
          exact haln1
    
      · rw [haln1.1] at h
        simp only [pure, Except.pure, Except.ok.injEq] at h
        rw [← h]
        exact haln1
    · simp only [pure, Except.pure, Except.ok.injEq] at h
      rw [← h]
      exact haln1
  · simp only [pure, Except.pure, Except.ok.injEq] at h
    rw [← h]
    exact ⟨hstart, rfl⟩

/-- For the path task, a missing start-location vector makes the path
phase bail. -/
theorem runPathPhaseNone {aln : Alignment} {config : AlignConfig}
    {eqd : EqualityDefinition} {tq tt : List Nat}
    (hp : config.task = AlignTask.Path)
    (hstart : aln.startLocations = none) :
    ∃ e, aln.runPathPhase config eqd tq tt = .error e := by
  unfold Alignment.runPathPhase
  rcases he : aln.endLocations with _ | ⟨_ | ⟨e0, el⟩⟩
  · exact ⟨"No start locations.", by simp only [hp, hstart, he]; rfl⟩
  · exact ⟨"index out of bounds", by simp only [hp, hstart, he]; rfl⟩
  · exact ⟨"No start locations.", by simp only [hp, hstart, he]; rfl⟩

/-- For any task other than the path task, the path phase is a no-op. -/
theorem runPathPhaseSkip {aln : Alignment} {config : AlignConfig}
    {eqd : EqualityDefinition} {tq tt : List Nat}
    (hp : ¬ config.task = AlignTask.Path) :
    aln.runPathPhase config eqd tq tt = .ok aln := by
  unfold Alignment.runPathPhase
  split
  next hc => exact absurd hc hp
  next => rfl

/-- The transformed sequences have the length of their inputs. -/
theorem modifySeqLength :
    ∀ (l : List Nat) (st st2 : TransformState) (is2 : List Nat),
      modifySeq st l = .ok (st2, is2) → is2.length = l.length
  | [], _, _, _, h => by
    simp only [modifySeq, Except.ok.injEq, Prod.mk.injEq] at h
    rw [← h.2]
  | c :: rest, st, st2, is2, h => by
    unfold modifySeq at h
    obtain ⟨r1, h1, h⟩ := bind_eq_ok h
    obtain ⟨r2, h2, h⟩ := bind_eq_ok h
    simp only [Except.ok.injEq, Prod.mk.injEq] at h
    rw [← h.2]
    simp only [List.length_cons]
    rw [modifySeqLength rest r1.1 r2.1 r2.2 h2]

/-- `transform_sequences` preserves the two sequence lengths. -/
theorem transformSequencesLengths {query target alphabet tq tt : List Nat}
    (h : transformSequences query target = .ok (alphabet, tq, tt)) :
    tq.length = query.length ∧ tt.length = target.length := by
  unfold transformSequences at h
  obtain ⟨r1, h1, h⟩ := bind_eq_ok h
  obtain ⟨r2, h2, h⟩ := bind_eq_ok h
  simp only [Except.ok.injEq, Prod.mk.injEq] at h
  obtain ⟨-, htq, htt⟩ := h
  subst htq
  subst htt
  exact ⟨modifySeqLength query _ _ _ h1,
    modifySeqLength target _ _ _ h2⟩

/-- C7: with the path task and non-empty inputs, `Alignment::run` never
returns a result — no code path ever creates `start_locations`, so the
path phase fails its start-location lookup — and accordingly any result
it does return arises from a task other than the path task and carries
no edit-operation sequence. -/
theorem claim7_theorem (fuel : Nat) (config : AlignConfig)
    (query target : List Nat) (r : Alignment)
    (hq : query ≠ []) (ht : target ≠ [])
    (h : Alignment.run fuel config query target = .ok r) :
    config.task ≠ AlignTask.Path ∧ r.alignment = none := by
  unfold Alignment.run at h
  obtain ⟨tr, h1, h2⟩ := bind_eq_ok h
  obtain ⟨alphabet, tq, tt⟩ := tr
  dsimp only at h2
  have hlen := transformSequencesLengths h1
  have htq : tq.isEmpty = false := by
    cases tq with
    | nil =>
      cases query with
      | nil => exact absurd rfl hq
      | cons a l =>
        have := hlen.1
        simp at this
    | cons a l => rfl
  have htt : tt.isEmpty = false := by
    cases tt with
    | nil =>
      cases target with
      | nil => exact absurd rfl ht
      | cons a l =>
        have := hlen.2
        simp at this
    | cons a l => rfl
  split at h2
  next hcond =>
    rcases hcond with hc | hc
    · rw [htq] at hc
      exact absurd hc (by simp)
    · rw [htt] at hc
      exact absurd hc (by simp)
  next =>
    obtain ⟨peq, hpeq, h2⟩ := bind_eq_ok h2
    obtain ⟨pr, hloop, h2⟩ := bind_eq_ok h2
    obtain ⟨aln1, p1⟩ := pr
    obtain ⟨aln2, hlocp, h2⟩ := bind_eq_ok h2
    have hpres := runLoopPreserves _ _ _ _ _ _ _ _ _ _ _ aln1 p1 hloop
    have hs1 : aln1.startLocations = none := hpres.1
    have ha1 : aln1.alignment = none := hpres.2
    have hp2 := runLocationPhasePreserves hs1 hlocp
    by_cases hp : config.task = AlignTask.Path
    · obtain ⟨e, he⟩ := runPathPhaseNone hp hp2.1
      rw [he] at h2
      exact absurd h2 (by simp)
    · rw [runPathPhaseSkip hp] at h2
      simp only [Except.ok.injEq] at h2
      rw [← h2]
      exact ⟨hp, hp2.2.trans ha1⟩

/-- Witness for C7 at a concrete run that does return a result: the
task is the distance task and the alignment field is empty. -/
theorem claim7_witness :
    ([(65 : Nat)] ≠ ([] : List Nat)) ∧
    Alignment.run 4 ⟨some 2, AlignMode.HW, AlignTask.Distance, []⟩ [65]
      [65] = .ok ⟨some 0, some [0], none, none, 1⟩ ∧
    (AlignTask.Distance ≠ AlignTask.Path ∧
      (⟨some 0, some [0], none, none, 1⟩ : Alignment).alignment = none) :=
  ⟨by decide, by decide,
    claim7_theorem 4 ⟨some 2, AlignMode.HW, AlignTask.Distance, []⟩
      [65] [65] ⟨some 0, some [0], none, none, 1⟩ (by decide) (by decide)
      (by decide)⟩

/-- One transform step succeeds on an in-range character and keeps every
alphabet member indexed. -/
theorem modifySeqStepTotal {st : TransformState} {elem : Nat}
    (hinv : ∀ c, st.inAlphabet c = true → (st.letterIdx c).isSome = true)
    (he : elem < maxUchar) :
    ∃ st2 i, modifySeqStep st elem = .ok (st2, i) ∧
      ∀ c, st2.inAlphabet c = true → (st2.letterIdx c).isSome = true := by
  unfold modifySeqStep
  by_cases hin : st.inAlphabet elem = false
  · rw [if_pos he, if_pos ⟨he, hin⟩]
    dsimp only
    rw [if_pos rfl]
    refine ⟨_, _, rfl, ?_⟩
    intro c hc
    dsimp only at hc ⊢
    by_cases hce : c = elem
    · rw [if_pos hce]
      rfl
    · rw [if_neg hce]
      rw [if_neg hce] at hc
      exact hinv c hc
  · rw [if_pos he, if_neg ?notins]
    case notins =>
      intro hand
      exact hin hand.2
    have hsome := hinv elem (by
      cases hb : st.inAlphabet elem with
      | true => rfl
      | false => exact absurd hb hin)
    obtain ⟨i, hi⟩ := Option.isSome_iff_exists.mp hsome
    rw [hi]
    exact ⟨st, i, rfl, hinv⟩

/-- The transform succeeds on any sequence of in-range characters. -/
theorem modifySeqTotal :
    ∀ (l : List Nat) (st : TransformState),
      (∀ c, st.inAlphabet c = true → (st.letterIdx c).isSome = true) →
      (∀ c ∈ l, c < maxUchar) →
      ∃ st2 is2, modifySeq st l = .ok (st2, is2) ∧
        ∀ c, st2.inAlphabet c = true → (st2.letterIdx c).isSome = true
  | [], st, hinv, _ => ⟨st, [], rfl, hinv⟩
  | c :: rest, st, hinv, hall => by
    obtain ⟨st1, i, h1, hinv1⟩ := modifySeqStepTotal hinv (hall c (by simp))
    obtain ⟨st2, is2, h2, hinv2⟩ := modifySeqTotal rest st1 hinv1
      (fun d hd => hall d (by simp [hd]))
    refine ⟨st2, i :: is2, ?_, hinv2⟩
    unfold modifySeq
    rw [h1, exceptBind_ok]
    dsimp only
    rw [h2, exceptBind_ok]

/-- `transform_sequences` succeeds whenever every character of both
sequences is below `MAX_UCHAR`. -/
theorem transformSequencesTotal {query target : List Nat}
    (hq : ∀ c ∈ query, c < maxUchar) (ht : ∀ c ∈ target, c < maxUchar) :
    ∃ a tq tt, transformSequences query target = .ok (a, tq, tt) := by
  obtain ⟨st1, tq, h1, hinv1⟩ :=
    modifySeqTotal query ⟨[], fun _ => none, fun _ => false⟩
      (fun c hc => absurd hc (by simp)) hq
  obtain ⟨st2, tt, h2, _⟩ := modifySeqTotal target st1 hinv1 ht
  refine ⟨st2.alphabet, tq, tt, ?_⟩
  unfold transformSequences
  dsimp only
  rw [h1, exceptBind_ok]
  dsimp only
  rw [h2, exceptBind_ok]

/-- C8: with an empty query or target the engine is skipped entirely:
global mode reports distance `max(|query|, |target|)` ending at
`|target| - 1`, the semi-global modes report distance `|query|` ending
at `-1`. -/
theorem claim8_theorem (fuel : Nat) (config : AlignConfig)
    (query target : List Nat)
    (hq : ∀ c ∈ query, c < maxUchar) (ht : ∀ c ∈ target, c < maxUchar)
    (he : query = [] ∨ target = []) :
    ∃ r, Alignment.run fuel config query target = .ok r ∧
      ((config.mode = AlignMode.NW ∧
        r.editDistance = some (max query.length target.length) ∧
        r.endLocations = some [(target.length : Int) - 1]) ∨
       (config.mode ≠ AlignMode.NW ∧
        r.editDistance = some query.length ∧
        r.endLocations = some [(-1 : Int)])) := by
  obtain ⟨a, tq, tt, htrans⟩ := transformSequencesTotal hq ht
  have hlen := transformSequencesLengths htrans
  have hempty : tq.isEmpty = true ∨ tt.isEmpty = true := by
    rcases he with h0 | h0
    · left
      rw [h0] at hlen
      cases tq with
      | nil => rfl
      | cons x l =>
        have := hlen.1
        simp at this
    · right
      rw [h0] at hlen
      cases tt with
      | nil => rfl
      | cons x l =>
        have := hlen.2
        simp at this
  unfold Alignment.run
  rw [htrans, exceptBind_ok]
  dsimp only
  rw [if_pos hempty]
  rcases hmode : config.mode with _ | _ | _
  · exact ⟨_, rfl, Or.inl ⟨rfl, by rw [← hlen.1, ← hlen.2], by rw [← hlen.2]⟩⟩
  · exact ⟨_, rfl, Or.inr ⟨by decide, by rw [← hlen.1], rfl⟩⟩
  · exact ⟨_, rfl, Or.inr ⟨by decide, by rw [← hlen.1], rfl⟩⟩

/-- Witness for C8: an empty query against the target `AB` in global
mode gives distance 2 ending at 1. -/
theorem claim8_witness :
    (∀ c ∈ ([] : List Nat), c < maxUchar) ∧
    (∀ c ∈ [(65 : Nat), 66], c < maxUchar) ∧
    (([] : List Nat) = [] ∨ [(65 : Nat), 66] = []) ∧
    ∃ r, Alignment.run 4 ⟨some 2, AlignMode.NW, AlignTask.Distance, []⟩ []
        [65, 66] = .ok r ∧
      ((AlignMode.NW = AlignMode.NW ∧
        r.editDistance = some (max ([] : List Nat).length [65, 66].length) ∧
        r.endLocations = some [([(65 : Nat), 66].length : Int) - 1]) ∨
       (AlignMode.NW ≠ AlignMode.NW ∧
        r.editDistance = some ([] : List Nat).length ∧
        r.endLocations = some [(-1 : Int)])) :=
  ⟨by decide, by decide, by decide,
    claim8_theorem 4 ⟨some 2, AlignMode.NW, AlignTask.Distance, []⟩ []
      [65, 66] (by decide) (by decide) (by decide)⟩

/-- A found character is still found, at the same index, after any
extension on the right. -/
theorem strFind_append_some :
    ∀ (a : List Nat) (b : List Nat) (c i : Nat),
      strFind a c = some i → strFind (a ++ b) c = some i
  | [], _, _, _, h => by simp [strFind] at h
  | x :: xs, b, c, i, h => by
    simp only [strFind] at h
    simp only [List.cons_append, List.append_eq, strFind]
    by_cases hx : x = c
    · rw [if_pos hx] at h ⊢
      exact h
    · rw [if_neg hx] at h ⊢
      obtain ⟨j, hj, hji⟩ := Option.map_eq_some'.mp h
      rw [strFind_append_some xs b c j hj]
      simp [hji]

/-- Membership gives a found index. -/
theorem strFind_of_mem :
    ∀ (a : List Nat) (c : Nat), c ∈ a → ∃ i, strFind a c = some i
  | [], c, h => absurd h (by simp)
  | x :: xs, c, h => by
    by_cases hx : x = c
    · refine ⟨0, ?_⟩
      simp only [strFind]
      rw [if_pos hx]
    · have hm : c ∈ xs := by
        rcases List.mem_cons.mp h with h0 | h0
        · exact absurd h0.symm hx
        · exact h0
      obtain ⟨j, hj⟩ := strFind_of_mem xs c hm
      refine ⟨j + 1, ?_⟩
      simp only [strFind]
      rw [if_neg hx, hj]
      rfl

/-- A fresh character appended on the right is found at the old
length. -/
theorem strFind_concat_self :
    ∀ (a : List Nat) (c : Nat), c ∉ a →
      strFind (a ++ [c]) c = some a.length
  | [], c, _ => by simp [strFind]
  | x :: xs, c, h => by
    have hx : ¬ x = c := fun he => h (by simp [he])
    have hm : c ∉ xs := fun hm => h (by simp [hm])
    simp only [List.cons_append, List.append_eq, strFind]
    rw [if_neg hx, strFind_concat_self xs c hm]
    rfl

/-- Appending a different character never changes a lookup. -/
theorem strFind_concat_ne :
    ∀ (a : List Nat) (c d : Nat), ¬ c = d →
      strFind (a ++ [d]) c = strFind a c
  | [], c, d, h => by simp [strFind, Ne.symm h]
  | x :: xs, c, d, h => by
    simp only [List.cons_append, List.append_eq, strFind]
    by_cases hx : x = c
    · rw [if_pos hx, if_pos hx]
    · rw [if_neg hx, if_neg hx, strFind_concat_ne xs c d h]

/-- The one-step unfolding of the first-appearance scan. -/
theorem faAux_cons (acc : List Nat) (c : Nat) (rest : List Nat) :
    firstAppearancesAux acc (c :: rest) =
      firstAppearancesAux (if c ∈ acc then acc else acc ++ [c]) rest := rfl

/-- Scanning a concatenation threads the accumulator. -/
theorem faAux_append :
    ∀ (l1 l2 acc : List Nat),
      firstAppearancesAux acc (l1 ++ l2) =
        firstAppearancesAux (firstAppearancesAux acc l1) l2
  | [], _, _ => rfl
  | c :: rest, l2, acc => by
    rw [List.cons_append, faAux_cons, faAux_cons]
    exact faAux_append rest l2 _

/-- The scan only ever appends to the accumulator. -/
theorem faAux_extend :
    ∀ (l acc : List Nat), ∃ suf, firstAppearancesAux acc l = acc ++ suf
  | [], acc => ⟨[], by simp [firstAppearancesAux]⟩
  | c :: rest, acc => by
    rw [faAux_cons]
    by_cases hc : c ∈ acc
    · rw [if_pos hc]
      exact faAux_extend rest acc
    · rw [if_neg hc]
      obtain ⟨s, hs⟩ := faAux_extend rest (acc ++ [c])
      exact ⟨c :: s, by rw [hs]; simp⟩

/-- The scan collects exactly the accumulator and the scanned list. -/
theorem faAux_mem :
    ∀ (l acc : List Nat) (c : Nat),
      c ∈ firstAppearancesAux acc l ↔ c ∈ acc ∨ c ∈ l
  | [], acc, c => by simp [firstAppearancesAux]
  | d :: rest, acc, c => by
    rw [faAux_cons, faAux_mem rest _ c]
    by_cases hd : d ∈ acc
    · rw [if_pos hd]
      constructor
      · rintro (h0 | h0)
        · exact Or.inl h0
        · exact Or.inr (List.mem_cons_of_mem d h0)
      · rintro (h0 | h0)
        · exact Or.inl h0
        · rcases List.mem_cons.mp h0 with h1 | h1
          · exact Or.inl (h1 ▸ hd)
          · exact Or.inr h1
    · rw [if_neg hd]
      constructor
      · rintro (h0 | h0)
        · rcases List.mem_append.mp h0 with h1 | h1
          · exact Or.inl h1
          · exact Or.inr
              (List.mem_cons.mpr (Or.inl (List.mem_singleton.mp h1)))
        · exact Or.inr (List.mem_cons_of_mem d h0)
      · rintro (h0 | h0)
        · exact Or.inl (List.mem_append.mpr (Or.inl h0))
        · rcases List.mem_cons.mp h0 with h1 | h1
          · exact Or.inl
              (List.mem_append.mpr (Or.inr (List.mem_singleton.mpr h1)))
          · exact Or.inr h1

/-- The scan never records a character twice. -/
theorem faAux_nodup :
    ∀ (l acc : List Nat), acc.Nodup → (firstAppearancesAux acc l).Nodup
  | [], _, h => h
  | c :: rest, acc, h => by
    rw [faAux_cons]
    by_cases hc : c ∈ acc
    · rw [if_pos hc]
      exact faAux_nodup rest acc h
    · rw [if_neg hc]
      refine faAux_nodup rest (acc ++ [c]) ?_
      rw [List.nodup_append]
      exact ⟨h, List.nodup_singleton c, by simpa using hc⟩

/-- A found byte offset is unchanged by any extension on the right. -/
theorem byteFind_append_some :
    ∀ (a : List Nat) (b : List Nat) (c i : Nat),
      byteFind a c = some i → byteFind (a ++ b) c = some i
  | [], _, _, _, h => by simp [byteFind] at h
  | x :: xs, b, c, i, h => by
    simp only [byteFind] at h
    simp only [List.cons_append, List.append_eq, byteFind]
    by_cases hx : x = c
    · rw [if_pos hx] at h ⊢
      exact h
    · rw [if_neg hx] at h ⊢
      obtain ⟨j, hj, hji⟩ := Option.map_eq_some'.mp h
      rw [byteFind_append_some xs b c j hj]
      simp [hji]

/-- Membership gives a byte offset. -/
theorem byteFind_of_mem :
    ∀ (a : List Nat) (c : Nat), c ∈ a → ∃ i, byteFind a c = some i
  | [], c, h => absurd h (by simp)
  | x :: xs, c, h => by
    by_cases hx : x = c
    · refine ⟨0, ?_⟩
      simp only [byteFind]
      rw [if_pos hx]
    · have hm : c ∈ xs := by
        rcases List.mem_cons.mp h with h0 | h0
        · exact absurd h0.symm hx
        · exact h0
      obtain ⟨j, hj⟩ := byteFind_of_mem xs c hm
      refine ⟨j + utf8Len x, ?_⟩
      simp only [byteFind]
      rw [if_neg hx, hj]
      rfl

/-- A fresh character appended on the right sits at the old byte
length. -/
theorem byteFind_concat_self :
    ∀ (a : List Nat) (c : Nat), c ∉ a →
      byteFind (a ++ [c]) c = some (byteLen a)
  | [], c, _ => by simp [byteFind, byteLen]
  | x :: xs, c, h => by
    have hx : ¬ x = c := fun he => h (by simp [he])
    have hm : c ∉ xs := fun hm => h (by simp [hm])
    simp only [List.cons_append, List.append_eq, byteFind]
    rw [if_neg hx, byteFind_concat_self xs c hm]
    simp [byteLen, Nat.add_comm]

/-- Appending a different character never changes a byte offset. -/
theorem byteFind_concat_ne :
    ∀ (a : List Nat) (c d : Nat), ¬ c = d →
      byteFind (a ++ [d]) c = byteFind a c
  | [], c, d, h => by simp [byteFind, Ne.symm h]
  | x :: xs, c, d, h => by
    simp only [List.cons_append, List.append_eq, byteFind]
    by_cases hx : x = c
    · rw [if_pos hx, if_pos hx]
    · rw [if_neg hx, if_neg hx, byteFind_concat_ne xs c d h]

/-- One transform step in terms of the first-appearance alphabet: the
recorded index is the byte offset of the character in the alphabet
string. -/
theorem modifySeqStepSpec {st : TransformState} {elem : Nat}
    (hl : ∀ c, st.letterIdx c = byteFind st.alphabet c)
    (hin : ∀ c, st.inAlphabet c = decide (c ∈ st.alphabet))
    (he : elem < maxUchar) :
    ∃ st2 i, modifySeqStep st elem = .ok (st2, i) ∧
      st2.alphabet =
        (if elem ∈ st.alphabet then st.alphabet
         else st.alphabet ++ [elem]) ∧
      (∀ c, st2.letterIdx c = byteFind st2.alphabet c) ∧
      (∀ c, st2.inAlphabet c = decide (c ∈ st2.alphabet)) ∧
      byteFind st2.alphabet elem = some i := by
  unfold modifySeqStep
  by_cases hmem : elem ∈ st.alphabet
  · have hfalse : ¬ st.inAlphabet elem = false := by
      rw [hin elem]
      simp [hmem]
    rw [if_pos he, if_neg (fun hand => hfalse hand.2)]
    obtain ⟨i, hi⟩ := byteFind_of_mem st.alphabet elem hmem
    rw [hl elem, hi]
    refine ⟨st, i, rfl, by rw [if_pos hmem], hl, hin, ?_⟩
    exact hi
  · have htrue : st.inAlphabet elem = false := by
      rw [hin elem]
      simp [hmem]
    rw [if_pos he, if_pos ⟨he, htrue⟩]
    dsimp only
    rw [if_pos rfl]
    refine ⟨_, _, rfl, by rw [if_neg hmem], ?_, ?_, ?_⟩
    · intro c
      dsimp only
      by_cases hce : c = elem
      · rw [if_pos hce, hce, byteFind_concat_self st.alphabet elem hmem]
      · rw [if_neg hce, byteFind_concat_ne st.alphabet c elem hce]
        exact hl c
    · intro c
      dsimp only
      by_cases hce : c = elem
      · rw [if_pos hce]
        simp [hce]
      · rw [if_neg hce, hin c]
        simp [List.mem_append, hce]
    · dsimp only
      exact byteFind_concat_self st.alphabet elem hmem

/-- The transform in terms of the first-appearance alphabet: the final
alphabet is the first-appearance scan and every emitted index is the
byte offset of its character in the final alphabet string. -/
theorem modifySeqSpec :
    ∀ (l : List Nat) (st : TransformState),
      (∀ c ∈ l, c < maxUchar) →
      (∀ c, st.letterIdx c = byteFind st.alphabet c) →
      (∀ c, st.inAlphabet c = decide (c ∈ st.alphabet)) →
      ∃ st2 is2, modifySeq st l = .ok (st2, is2) ∧
        st2.alphabet = firstAppearancesAux st.alphabet l ∧
        (∀ c, st2.letterIdx c = byteFind st2.alphabet c) ∧
        (∀ c, st2.inAlphabet c = decide (c ∈ st2.alphabet)) ∧
        is2 = l.map (fun c => (byteFind st2.alphabet c).getD 0)
  | [], st, _, hl, hin => ⟨st, [], rfl, rfl, hl, hin, rfl⟩
  | c :: rest, st, hall, hl, hin => by
    obtain ⟨st1, i, h1, ha1, hl1, hin1, hf1⟩ :=
      modifySeqStepSpec hl hin (hall c (by simp))
    obtain ⟨st2, is1, h2, ha2, hl2, hin2, hmap⟩ :=
      modifySeqSpec rest st1 (fun d hd => hall d (by simp [hd])) hl1 hin1
    obtain ⟨suf, hsuf⟩ := faAux_extend rest st1.alphabet
    have hfinal : byteFind st2.alphabet c = some i := by
      rw [ha2, hsuf]
      exact byteFind_append_some st1.alphabet suf c i hf1
    refine ⟨st2, i :: is1, ?_, ?_, hl2, hin2, ?_⟩
    · unfold modifySeq
      rw [h1, exceptBind_ok]
      dsimp only
      rw [h2, exceptBind_ok]
    · rw [ha2, ha1, faAux_cons]
    · simp only [List.map_cons]
      rw [← hmap, hfinal]
      rfl

/-- C9, counterexample to the original claim on the faithful embedding:
for the query "éA" the source records `alphabet.len()` — the UTF-8 byte
length — so the transformed query is `[0, 2]` while the alphabet
indices are `[0, 1]`, and the alphabet string has byte length 3 against
2 distinct characters. -/
theorem claim9_counterexample :
    transformSequences [233, 65] [] = .ok ([233, 65], [0, 2], []) ∧
    [(233 : Nat), 65].map (fun c => (strFind [233, 65] c).getD 0)
      = [0, 1] ∧
    ([(0 : Nat), 2] : List Nat) ≠ [0, 1] ∧
    byteLen [233, 65] = 3 ∧
    ([(233 : Nat), 65] ++ []).toFinset.card = 2 := by decide

/-- C9 (amended): on in-range characters `transform_sequences` returns
the distinct characters in first-appearance order — query scanned
before target — so the character count of the alphabet is the distinct
count, and each transformed element is the UTF-8 byte offset of its
character inside the alphabet string (align.rs line 77 records
`String::len`), which coincides with the alphabet index only when every
character is below 128. -/
theorem claim9_theorem (query target : List Nat)
    (hq : ∀ c ∈ query, c < maxUchar) (ht : ∀ c ∈ target, c < maxUchar) :
    ∃ tq tt,
      transformSequences query target =
        .ok (firstAppearances (query ++ target), tq, tt) ∧
      (firstAppearances (query ++ target)).length =
        (query ++ target).toFinset.card ∧
      tq = query.map
        (fun c =>
          (byteFind (firstAppearances (query ++ target)) c).getD 0) ∧
      tt = target.map
        (fun c =>
          (byteFind (firstAppearances (query ++ target)) c).getD 0) := by
  obtain ⟨st1, tq, h1, ha1, hl1, hin1, hmap1⟩ :=
    modifySeqSpec query ⟨[], fun _ => none, fun _ => false⟩ hq
      (fun c => rfl) (fun c => by simp)
  obtain ⟨st2, tt, h2, ha2, hl2, hin2, hmap2⟩ :=
    modifySeqSpec target st1 ht hl1 hin1
  have hfa : st2.alphabet = firstAppearances (query ++ target) := by
    rw [ha2, ha1]
    unfold firstAppearances
    rw [faAux_append]
  have hrun : transformSequences query target = .ok (st2.alphabet, tq, tt) := by
    unfold transformSequences
    dsimp only
    rw [h1, exceptBind_ok]
    dsimp only
    rw [h2, exceptBind_ok]
  have hcard : (firstAppearances (query ++ target)).length =
      (query ++ target).toFinset.card := by
    have hnd : (firstAppearances (query ++ target)).Nodup :=
      faAux_nodup (query ++ target) [] List.nodup_nil
    have hset : (firstAppearances (query ++ target)).toFinset =
        (query ++ target).toFinset := by
      ext c
      simp only [List.mem_toFinset]
      rw [firstAppearances, faAux_mem]
      simp
    rw [← List.toFinset_card_of_nodup hnd, hset]
  have htqmap : tq = query.map
      (fun c =>
        (byteFind (firstAppearances (query ++ target)) c).getD 0) := by
    rw [hmap1]
    refine List.map_congr_left ?_
    intro c hc
    have hmem : c ∈ st1.alphabet := by
      rw [ha1, faAux_mem]
      exact Or.inr hc
    obtain ⟨i, hi⟩ := byteFind_of_mem st1.alphabet c hmem
    obtain ⟨suf, hsuf⟩ := faAux_extend target st1.alphabet
    have : byteFind (firstAppearances (query ++ target)) c = some i := by
      rw [← hfa, ha2, hsuf]
      exact byteFind_append_some st1.alphabet suf c i hi
    rw [hi, this]
  refine ⟨tq, tt, ?_, hcard, htqmap, ?_⟩
  · rw [hrun, hfa]
  · rw [hmap2, hfa]

/-- Witness for C9 (amended) on `query = "éAé"`, `target = "AB"`:
alphabet `"éAB"`, three distinct characters, transformed sequences of
byte offsets `[0, 2, 0]` and `[2, 3]`. -/
theorem claim9_witness :
    (∀ c ∈ [(233 : Nat), 65, 233], c < maxUchar) ∧
    (∀ c ∈ [(65 : Nat), 66], c < maxUchar) ∧
    ∃ tq tt,
      transformSequences [233, 65, 233] [65, 66] =
        .ok (firstAppearances ([233, 65, 233] ++ [65, 66]), tq, tt) ∧
      (firstAppearances ([233, 65, 233] ++ [65, 66])).length =
        ([(233 : Nat), 65, 233] ++ [65, 66]).toFinset.card ∧
      tq = [233, 65, 233].map
        (fun c =>
          (byteFind (firstAppearances ([233, 65, 233] ++ [65, 66])) c).getD
            0) ∧
      tt = [65, 66].map
        (fun c =>
          (byteFind (firstAppearances ([233, 65, 233] ++ [65, 66])) c).getD
            0) :=
  ⟨by decide, by decide,
    claim9_theorem [233, 65, 233] [65, 66] (by decide) (by decide)⟩

/-- A found index is within the list. -/
theorem strFind_lt_length :
    ∀ (a : List Nat) (c i : Nat), strFind a c = some i → i < a.length
  | [], _, _, h => by simp [strFind] at h
  | x :: xs, c, i, h => by
    simp only [strFind] at h
    by_cases hx : x = c
    · rw [if_pos hx] at h
      cases h
      simp
    · rw [if_neg hx] at h
      obtain ⟨j, hj, hji⟩ := Option.map_eq_some'.mp h
      have := strFind_lt_length xs c j hj
      simp only [List.length_cons]
      omega

/-- The equality lookup succeeds on members of an alphabet of at most
`MAX_UCHAR` characters. -/
theorem areEqualTotal {eqd : EqualityDefinition} {a b : Nat}
    (ha : a ∈ eqd.alphabet) (hb : b ∈ eqd.alphabet)
    (hlen : eqd.alphabet.length ≤ maxUchar) :
    ∃ v, eqd.areEqual a b = .ok v := by
  obtain ⟨i, hi⟩ := strFind_of_mem _ a ha
  obtain ⟨j, hj⟩ := strFind_of_mem _ b hb
  have hiL := strFind_lt_length _ a i hi
  have hjL := strFind_lt_length _ b j hj
  unfold EqualityDefinition.areEqual
  rw [hi, hj]
  show ∃ v, eqd.matrixGet i j = .ok v
  unfold EqualityDefinition.matrixGet
  rw [if_pos ?bound]
  · exact ⟨_, rfl⟩
  case bound =>
    have hm : maxUchar = 256 := rfl
    have hj255 : j ≤ 255 := by omega
    have h1 : eqd.alphabet.length * j ≤ 256 * 255 :=
      Nat.mul_le_mul (by omega) hj255
    have h2 : maxUchar * maxUchar = 65536 := rfl
    omega

/-- Pointwise successful fail-fast map. -/
theorem exceptMap_ok {α β : Type} (f : α → Except String β) (g : α → β) :
    ∀ l : List α, (∀ a ∈ l, f a = .ok (g a)) →
      exceptMap f l = .ok (l.map g)
  | [], _ => rfl
  | x :: xs, h => by
    unfold exceptMap
    rw [h x (by simp), exceptBind_ok]
    rw [exceptMap_ok f g xs (fun a ha => h a (by simp [ha])),
      exceptBind_ok]
    rfl

/-- The length of a flattening of equal-length rows. -/
theorem flatten_length_of_const {α : Type} (m : Nat) :
    ∀ rows : List (List α), (∀ row ∈ rows, row.length = m) →
      rows.flatten.length = rows.length * m
  | [], _ => by simp
  | row :: rest, h => by
    simp only [List.flatten_cons, List.length_append, List.length_cons]
    rw [h row (by simp),
      flatten_length_of_const m rest (fun r hr => h r (by simp [hr]))]
    ring

/-- Row-major access into a flattening of equal-length rows. -/
theorem flatten_get_of_const {α : Type} (m : Nat) :
    ∀ (rows : List (List α)) (s b : Nat),
      (∀ row ∈ rows, row.length = m) → s < rows.length → b < m →
      rows.flatten.get? (s * m + b) =
        (rows.get? s).bind (fun row => row.get? b)
  | [], _, _, _, hs, _ => absurd hs (by simp)
  | row :: rest, 0, b, hlen, _, hb => by
    simp only [List.flatten_cons, Nat.zero_mul, Nat.zero_add]
    rw [List.get?_append (by rw [hlen row (by simp)]; exact hb)]
    rfl
  | row :: rest, s + 1, b, hlen, hs, hb => by
    simp only [List.flatten_cons]
    rw [List.get?_append_right (by rw [hlen row (by simp)]; nlinarith)]
    rw [hlen row (by simp)]
    have harith : (s + 1) * m + b - m = s * m + b := by
      rw [Nat.succ_mul]
      omega
    rw [harith,
      flatten_get_of_const m rest s b (fun r hr => hlen r (by simp [hr]))
        (by simpa using hs) hb]
    rfl

/-- The word loop of `build_peq_table`, characterised bit by bit: bit
`i` holds the wildcard-or-equality value of query row `base + i`, and
the incoming accumulator is shifted above the `n` fresh bits. -/
theorem buildPeqWordAuxSpec (eqd : EqualityDefinition) (query : List Nat)
    (sc base : Nat) (rc : Nat → Nat) (bv : Nat → Bool) :
    ∀ (n : Nat) (acc : Nat),
      (∀ r, base ≤ r → r < base + n →
        eqd.symbol ((query.get? r).getD 0) = some (rc r) ∧
        ((query.length ≤ r ∧ bv r = true) ∨
         (r < query.length ∧ eqd.areEqual (rc r) sc = .ok (bv r)))) →
      ∃ w, buildPeqWordAux eqd query sc base n acc = .ok w ∧
        (∀ i, i < n → w.testBit i = bv (base + i)) ∧
        (∀ i, w.testBit (n + i) = acc.testBit i)
  | 0, acc, _ =>
    ⟨acc, rfl, fun i hi => absurd hi (by omega),
      fun i => by rw [Nat.zero_add]⟩
  | n + 1, acc, h => by
    have hr := h (base + n) (by omega) (by omega)
    obtain ⟨w, hw, hbits, hacc⟩ :=
      buildPeqWordAuxSpec eqd query sc base rc bv n
        (if bv (base + n) = true then acc <<< 1 + 1 else acc <<< 1)
        (fun r h1 h2 => h r h1 (by omega))
    have hstep :
        buildPeqWordAux eqd query sc base (n + 1) acc = .ok w := by
      unfold buildPeqWordAux
      dsimp only
      rw [hr.1]
      dsimp only
      rcases hr.2 with ⟨hpad, hbv⟩ | ⟨hlt, heq⟩
      · rw [if_pos hpad]
        simp only [pure, Except.pure, exceptBind_ok]
        rw [hbv] at hw
        simpa using hw
      · rw [if_neg (by omega), heq, exceptBind_ok]
        exact hw
    have hlow :
        (if bv (base + n) = true then acc <<< 1 + 1
         else acc <<< 1).testBit 0 = bv (base + n) := by
      cases hb : bv (base + n) with
      | true =>
        rw [if_pos rfl, Nat.testBit_zero]
        have : (acc <<< 1 + 1) % 2 = 1 := by
          rw [Nat.shiftLeft_eq]
          omega
        simp [this]
      | false =>
        rw [if_neg (by simp), Nat.testBit_zero]
        have : (acc <<< 1) % 2 = 0 := by
          rw [Nat.shiftLeft_eq]
          omega
        simp [this]
    have hhigh :
        ∀ j, (if bv (base + n) = true then acc <<< 1 + 1
          else acc <<< 1).testBit (j + 1) = acc.testBit j := by
      intro j
      cases hb : bv (base + n) with
      | true =>
        rw [if_pos rfl, Nat.testBit_succ]
        have : (acc <<< 1 + 1) / 2 = acc := by
          rw [Nat.shiftLeft_eq]
          omega
        rw [this]
      | false =>
        rw [if_neg (by simp), Nat.testBit_succ]
        have : acc <<< 1 / 2 = acc := by
          rw [Nat.shiftLeft_eq]
          omega
        rw [this]
    refine ⟨w, hstep, ?_, ?_⟩
    · intro i hi
      by_cases hin : i < n
      · exact hbits i hin
      · have hieq : i = n := by omega
        subst hieq
      
        have h0 := hacc 0
        rw [Nat.add_zero] at h0
        rw [h0, hlow]
    · intro i
      have hx : n + 1 + i = n + (i + 1) := by omega
      rw [hx, hacc (i + 1), hhigh i]

/-- C10: the query profile has `(A+1) * maxBlocks` words laid out row
major; the wildcard row is all ones; and bit `i` of the word of symbol
`s`, block `b` is set exactly when query row `b*64 + i` is past the end
of the query or its character equals symbol `s` under the equality
table. -/
theorem claim10_theorem (A : Nat) (query : List Nat)
    (eqd : EqualityDefinition)
    (hA : eqd.alphabet.length = A) (hA256 : A ≤ maxUchar)
    (hq : ∀ c ∈ query, c < A) :
    ∃ peq, buildPeqTable A query eqd = .ok peq ∧
      peq.length = (A + 1) * ceilDiv query.length wordSize ∧
      (∀ b, b < ceilDiv query.length wordSize →
        peq.get? (A * ceilDiv query.length wordSize + b) = some wordMax) ∧
      (∀ s, s < A → ∀ b, b < ceilDiv query.length wordSize →
        ∀ i, i < wordSize →
        ∃ w sc rc,
          peq.get? (s * ceilDiv query.length wordSize + b) = some w ∧
          eqd.symbol s = some sc ∧
          eqd.symbol ((query.get? (b * wordSize + i)).getD 0) = some rc ∧
          (w.testBit i = true ↔
            (query.length ≤ b * wordSize + i ∨
             eqd.areEqual rc sc = .ok true))) := by
  set m := ceilDiv query.length wordSize with hm
  have hsymOf : ∀ x, x < A → eqd.symbol x = some ((eqd.symbol x).getD 0) := by
    intro x hx
    have : eqd.symbol x = eqd.alphabet.get? x := rfl
    rw [this, List.get?_eq_get (by omega)]
    rfl
  have hsymMem : ∀ x c, eqd.symbol x = some c → c ∈ eqd.alphabet :=
    fun x c hc => List.get?_mem hc
  have hidx : ∀ r : Nat, 0 < A → (query.get? r).getD 0 < A := by
    intro r h0
    cases hg : query.get? r with
    | none => exact h0
    | some qc => exact hq qc (List.get?_mem hg)
  have hrowOk : ∀ s, s < A →
      ∀ b, ∃ w,
        buildPeqWordAux eqd query ((eqd.symbol s).getD 0) (b * wordSize)
          wordSize 0 = .ok w ∧
        (∀ i, i < wordSize →
          (w.testBit i = true ↔
            (query.length ≤ b * wordSize + i ∨
             eqd.areEqual ((eqd.symbol ((query.get? (b * wordSize + i)).getD 0)).getD 0)
               ((eqd.symbol s).getD 0) = .ok true))) := by
    intro s hs b
    have h0A : 0 < A := by omega
    obtain ⟨w, hw, hbits, -⟩ :=
      buildPeqWordAuxSpec eqd query ((eqd.symbol s).getD 0) (b * wordSize)
        (fun r => (eqd.symbol ((query.get? r).getD 0)).getD 0)
        (fun r =>
          if query.length ≤ r then true
          else
            match eqd.areEqual
              ((eqd.symbol ((query.get? r).getD 0)).getD 0)
              ((eqd.symbol s).getD 0) with
            | .ok v => v
            | .error _ => false)
        wordSize 0
        (by
          intro r _ _
          refine ⟨hsymOf _ (hidx r h0A), ?_⟩
          by_cases hpad : query.length ≤ r
          · exact Or.inl ⟨hpad, by dsimp only; rw [if_pos hpad]⟩
          · refine Or.inr ⟨by omega, ?_⟩
            obtain ⟨v, hv⟩ := areEqualTotal
              (hsymMem _ _ (hsymOf _ (hidx r h0A)))
              (hsymMem _ _ (hsymOf _ hs)) (by omega)
            dsimp only
            rw [if_neg hpad, hv])
    refine ⟨w, hw, ?_⟩
    intro i hi
    rw [hbits i hi]
    by_cases hpad : query.length ≤ b * wordSize + i
    · rw [if_pos hpad]
      simp [hpad]
    · rw [if_neg hpad]
      obtain ⟨v, hv⟩ := areEqualTotal
        (hsymMem _ _ (hsymOf _ (hidx (b * wordSize + i) h0A)))
        (hsymMem _ _ (hsymOf _ hs)) (by omega)
      rw [hv]
      cases v with
      | true =>
        constructor
        · intro _
          exact Or.inr rfl
        · intro _
          rfl
      | false =>
        constructor
        · intro hcontra
          exact absurd hcontra Bool.false_ne_true
        · rintro (h0 | h0)
          · exact absurd h0 hpad
          · exact absurd h0 (by simp)
  have hrow : ∀ s ∈ List.range (A + 1),
      buildPeqRow eqd query m s = .ok
        (if s < A then
          (List.range m).map (fun b =>
            match buildPeqWordAux eqd query ((eqd.symbol s).getD 0)
              (b * wordSize) wordSize 0 with
            | .ok w => w
            | .error _ => 0)
         else List.replicate m wordMax) := by
    intro s _
    by_cases hs : s < A
    · rw [if_pos hs]
      unfold buildPeqRow
      rw [hsymOf s hs]
      dsimp only
      rw [exceptMap_ok _ (fun b =>
        match buildPeqWordAux eqd query ((eqd.symbol s).getD 0)
          (b * wordSize) wordSize 0 with
        | .ok w => w
        | .error _ => 0) _ ?pw]
      · rfl
      case pw =>
        intro b _
        obtain ⟨w, hw, -⟩ := hrowOk s hs b
        simp only [hw]
    · rw [if_neg hs]
      unfold buildPeqRow
      have hnone : eqd.symbol s = none := by
        have : eqd.symbol s = eqd.alphabet.get? s := rfl
        rw [this, List.get?_eq_none]
        omega
      rw [hnone]
  have htable : buildPeqTable A query eqd = .ok
      (((List.range (A + 1)).map (fun s =>
        if s < A then
          (List.range m).map (fun b =>
            match buildPeqWordAux eqd query ((eqd.symbol s).getD 0)
              (b * wordSize) wordSize 0 with
            | .ok w => w
            | .error _ => 0)
         else List.replicate m wordMax)).flatten) := by
    unfold buildPeqTable
    dsimp only
    rw [← hm, exceptMap_ok _ _ _ hrow, exceptBind_ok]
  have hglen : ∀ row ∈ (List.range (A + 1)).map (fun s =>
      if s < A then
        (List.range m).map (fun b =>
          match buildPeqWordAux eqd query ((eqd.symbol s).getD 0)
            (b * wordSize) wordSize 0 with
          | .ok w => w
          | .error _ => 0)
       else List.replicate m wordMax), row.length = m := by
    intro row hr
    obtain ⟨s, -, rfl⟩ := List.mem_map.mp hr
    by_cases hs : s < A
    · rw [if_pos hs]
      simp
    · rw [if_neg hs]
      simp
  refine ⟨_, htable, ?_, ?_, ?_⟩
  · rw [flatten_length_of_const m _ hglen]
    simp
  · intro b hb
    rw [flatten_get_of_const m _ A b hglen (by simp) hb]
    rw [List.get?_map, List.get?_range (by omega)]
    simp only [Option.map_some', Option.some_bind]
    rw [if_neg (by omega)]
    rw [List.get?_eq_getElem?, List.getElem?_replicate, if_pos hb]
  · intro s hs b hb i hi
    obtain ⟨w, hw, hiff⟩ := hrowOk s hs b
    refine ⟨w, (eqd.symbol s).getD 0,
      (eqd.symbol ((query.get? (b * wordSize + i)).getD 0)).getD 0,
      ?_, hsymOf s hs, hsymOf _ (hidx _ (by omega)), hiff i hi⟩
    rw [flatten_get_of_const m _ s b hglen (by simp; omega) hb]
    rw [List.get?_map, List.get?_range (by omega)]
    simp only [Option.map_some', Option.some_bind]
    rw [if_pos hs]
    rw [List.get?_map, List.get?_range hb]
    simp only [Option.map_some']
    rw [hw]

/-- Witness for C10 on the two-letter alphabet `AB` and the transformed
query `[0, 1]`. -/
theorem claim10_witness :
    ((EqualityDefinition.new [65, 66] []).alphabet.length = 2) ∧
    (2 ≤ maxUchar) ∧
    (∀ c ∈ [(0 : Nat), 1], c < 2) ∧
    ∃ peq, buildPeqTable 2 [0, 1] (EqualityDefinition.new [65, 66] [])
        = .ok peq ∧
      peq.length = (2 + 1) * ceilDiv ([(0 : Nat), 1]).length wordSize ∧
      (∀ b, b < ceilDiv ([(0 : Nat), 1]).length wordSize →
        peq.get? (2 * ceilDiv ([(0 : Nat), 1]).length wordSize + b)
          = some wordMax) ∧
      (∀ s, s < 2 → ∀ b, b < ceilDiv ([(0 : Nat), 1]).length wordSize →
        ∀ i, i < wordSize →
        ∃ w sc rc,
          peq.get? (s * ceilDiv ([(0 : Nat), 1]).length wordSize + b)
            = some w ∧
          (EqualityDefinition.new [65, 66] []).symbol s = some sc ∧
          (EqualityDefinition.new [65, 66] []).symbol
            ((([(0 : Nat), 1]).get? (b * wordSize + i)).getD 0)
            = some rc ∧
          (w.testBit i = true ↔
            (([(0 : Nat), 1]).length ≤ b * wordSize + i ∨
             (EqualityDefinition.new [65, 66] []).areEqual rc sc
               = .ok true))) :=
  ⟨by decide, by decide, by decide,
    claim10_theorem 2 [0, 1] (EqualityDefinition.new [65, 66] [])
      (by decide) (by decide) (by decide)⟩

end RsEdlib
